import Mathlib

set_option maxRecDepth 100000
set_option maxHeartbeats 1000000

/-!
Shallow embedding of `circleci_to_gha/ai_client.py` (class `GeminiClient`):
the response segmenter `_parse_workflows`, the content sanitizer
`_clean_yaml_content`, the completeness validator
`_validate_workflow_completeness`, and the decomposition planner
`generate_workflow` / `_generate_workflows_individually` /
`_generate_all_workflows`.

Python strings are modelled as `List Char`.  External collaborators are
parameters: the Gemini transport (`gem`), the PyYAML parser outcome
(`parsed` / `yamlErr`), `yaml.dump` (`dump`), and the prompt files loaded
from disk (`sys`, `examples`).  Everything that is code of `ai_client.py`
is translated directly.
-/

/-- Python strings as character lists. -/
abbrev Str := List Char

/-- Whitespace test used by Python `str.strip` / `str.isspace`
(the common ASCII subset `' '`, `'\t'`, `'\r'`, `'\n'`). -/
def isWS (c : Char) : Bool := c.isWhitespace

/-- Every character of the string is whitespace. -/
def allWS (l : Str) : Bool := l.all isWS

/-- Python `s.lstrip()`. -/
def pyLStrip (l : Str) : Str := l.dropWhile isWS

/-- Python `s.rstrip()`. -/
def pyRStrip (l : Str) : Str := (l.reverse.dropWhile isWS).reverse

/-- Python `s.strip()`. -/
def pyStrip (l : Str) : Str := pyRStrip (pyLStrip l)

/-- Python `s.split("\n")`: always returns at least one piece, empty string
gives `[""]`. -/
def splitLines : Str → List Str
  | [] => [[]]
  | c :: cs =>
    let r := splitLines cs
    if c = '\n' then [] :: r
    else
      match r with
      | [] => [[c]]
      | h :: t => (c :: h) :: t

/-- Python `"\n".join(ls)`. -/
def joinNL : List Str → Str
  | [] => []
  | [l] => l
  | l :: ls => l ++ '\n' :: joinNL ls

/-- Worker for `replaceAll`: `skip` counts matched characters that still have
to be consumed without being emitted. -/
def replaceAllGo (pat rep : Str) : Str → Nat → Str
  | [], _ => []
  | _ :: cs, skip + 1 => replaceAllGo pat rep cs skip
  | c :: cs, 0 =>
    if pat ≠ [] ∧ pat.isPrefixOf (c :: cs) then
      rep ++ replaceAllGo pat rep cs (pat.length - 1)
    else
      c :: replaceAllGo pat rep cs 0

/-- Python `s.replace(pat, rep)`: replace all non-overlapping occurrences,
left to right.  (The `pat = ""` behaviour of Python, interleaving `rep`
everywhere, is not reproduced; the source only replaces `"FILENAME:"`.) -/
def replaceAll (pat rep s : Str) : Str := replaceAllGo pat rep s 0

/-- Python substring containment `sub in s`. -/
def strIn (sub : Str) : Str → Bool
  | [] => sub.isEmpty
  | c :: cs => sub.isPrefixOf (c :: cs) || strIn sub cs

/-- Python dict assignment `d[k] = v` on an insertion-ordered dict:
overwrite in place if the key exists, else append. -/
def dictInsert (m : List (Str × Str)) (k v : Str) : List (Str × Str) :=
  if m.any (fun p => p.1 = k) then
    m.map (fun p => if p.1 = k then (k, v) else p)
  else
    m ++ [(k, v)]

/-- Python `d.update(new)`: assign every pair of `new` into `d` in order. -/
def dictUpdate (m new : List (Str × Str)) : List (Str × Str) :=
  new.foldl (fun acc p => dictInsert acc p.1 p.2) m

/-! ## `_clean_yaml_content` (the content sanitizer) -/

/-- The markdown-bullet test of `_clean_yaml_content`'s first loop:
`stripped.startswith(("*", "-", "•"))`. -/
def bulletStart3 (s : Str) : Bool :=
  "*".data.isPrefixOf s || "-".data.isPrefixOf s || "•".data.isPrefixOf s

/-- The bullet test of the trailing-commentary scan:
`line.startswith(("*", "-", "•", "**"))` (the `"**"` member is subsumed by
`"*"` but kept from the source). -/
def bulletStart4 (s : Str) : Bool :=
  "*".data.isPrefixOf s || "-".data.isPrefixOf s || "•".data.isPrefixOf s ||
    "**".data.isPrefixOf s

/-- The first loop of `_clean_yaml_content`: `True` iff the line is kept
(not a markdown bullet without a colon, not an indented markdown heading). -/
def keepLine (line : Str) : Bool :=
  let stripped := pyStrip line
  if bulletStart3 stripped ∧ ¬ line.contains ':' then false
  else if "#".data.isPrefixOf stripped ∧ ¬ "#".data.isPrefixOf line then false
  else true

/-- The break condition of the trailing-commentary scan: the loop stops at
index `i` iff the stripped line is non-empty, does not start with a bullet
glyph, and (being non-empty and bullet-free) contains a colon.  The two
redundant disjuncts of the source's inner test are kept. -/
def isBoundary (line : Str) : Bool :=
  let s := pyStrip line
  (¬ s = []) ∧ ¬ bulletStart4 s ∧
    (s.contains ':' ∨ "-".data.isPrefixOf s ∨ s = [])

/-- Index of the last line satisfying `isBoundary`, if any (the scan of
`_clean_yaml_content` walks from the end and breaks at the first hit). -/
def lastBoundary? : List Str → Option Nat
  | [] => none
  | l :: ls =>
    match lastBoundary? ls with
    | some j => some (j + 1)
    | none => if isBoundary l then some 0 else none

/-- Model of `last_yaml_idx` as computed by the source: the scan's break index, or
`len - 1` when the scan never breaks. -/
def lastYamlIdx (ll : List Str) : Nat :=
  (lastBoundary? ll).getD (ll.length - 1)

/-- Model of `GeminiClient._clean_yaml_content`: drop markdown bullets and indented
headings, join, strip, trim trailing commentary after the last
colon-bearing line, strip again. -/
def cleanYamlContent (lines : List Str) : Str :=
  let cleaned := lines.filter keepLine
  let content := pyStrip (joinNL cleaned)
  let ll := splitLines content
  let idx := lastYamlIdx ll
  let content2 :=
    if idx < ll.length - 1 then joinNL (ll.take (idx + 1)) else content
  pyStrip content2

/-! ## `_parse_workflows` (the response segmenter) -/

/-- Scanner state of `_parse_workflows`. -/
structure PWState where
  workflows : List (Str × Str)
  currentFile : Option Str
  currentContent : List Str
  inCodeBlock : Bool

/-- Python truthiness of `current_file`: not `None` and not `""`. -/
def truthyCF : Option Str → Bool
  | none => false
  | some f => ¬ f = []

/-- The flush step of `_parse_workflows`: save the buffered workflow when
both `current_file` and `current_content` are truthy and the cleaned
content is non-empty. -/
def pwFlush (st : PWState) : List (Str × Str) :=
  match st.currentFile with
  | some f =>
    if f ≠ [] ∧ st.currentContent ≠ [] then
      let content := cleanYamlContent st.currentContent
      if content ≠ [] then dictInsert st.workflows f content
      else st.workflows
    else st.workflows
  | none => st.workflows

/-- One iteration of the `while` loop of `_parse_workflows`. -/
def pwStep (st : PWState) (line : Str) : PWState :=
  if "FILENAME:".data.isPrefixOf line then
    { workflows := pwFlush st,
      currentFile := some (pyStrip (replaceAll "FILENAME:".data [] line)),
      currentContent := [],
      inCodeBlock := false }
  else if "```yaml".data.isPrefixOf line ∨ "```yml".data.isPrefixOf line then
    { st with inCodeBlock := true }
  else if "```".data.isPrefixOf line ∧ st.inCodeBlock then
    { st with inCodeBlock := false }
  else if truthyCF st.currentFile ∧ st.inCodeBlock then
    { st with currentContent := st.currentContent ++ [line] }
  else st

/-- Model of `GeminiClient._parse_workflows`: scan the response line by line,
collect fenced content under the most recent `FILENAME:` marker, clean it,
and store it in an insertion-ordered map. -/
def parseWorkflows (response : Str) : List (Str × Str) :=
  let final := (splitLines response).foldl pwStep ⟨[], none, [], false⟩
  pwFlush final

/-! ## `_validate_workflow_completeness` (the completeness validator) -/

/-- Warning kinds emitted by `_validate_workflow_completeness`.  The Python
function interpolates the artifact's filename into each message string;
the payloads below carry the variable parts of those messages. -/
inductive Warn where
  | empty : Warn
  | truncated : Str → Warn
  | deepIndent : Warn
  | danglingKey : Warn
  | emptyRun : Nat → Warn
  | parseError : Str → Warn
deriving DecidableEq

/-- The `truncation_indicators` list of the source. -/
def truncationIndicators : List Str :=
  ["...".data, "# TODO".data, "# ...".data, "# rest of".data,
   "# remaining".data]

/-- State of the empty-`run:`-block scan. -/
structure RunSt where
  warns : List Warn
  inRun : Bool
  runLineNo : Nat
  cnt : Nat

/-- The test `line and not line[0].isspace()` closing a run block. -/
def leavesRun (line : Str) : Bool :=
  match line with
  | [] => false
  | c :: _ => ¬ isWS c

/-- One iteration of the `for i, line in enumerate(lines, 1)` loop. -/
def runStep (i : Nat) (st : RunSt) (line : Str) : RunSt :=
  let stripped := pyStrip line
  if "run:".data.isPrefixOf stripped then
    let st' := { st with inRun := true, runLineNo := i, cnt := 0 }
    if stripped.length > 5 ∧
        ¬ (stripped.getLast? = some '|' ∨ stripped.getLast? = some '>') then
      { st' with inRun := false }
    else st'
  else if st.inRun then
    if leavesRun line then
      { st with
        warns :=
          if st.cnt = 0 then st.warns ++ [Warn.emptyRun st.runLineNo]
          else st.warns,
        inRun := false }
    else if pyStrip line ≠ [] ∧ ¬ "#".data.isPrefixOf (pyStrip line) then
      { st with cnt := st.cnt + 1 }
    else st
  else st

/-- The scan itself, indices starting at 1.  The loop has no end-of-input
flush: a run block still open when the lines end emits nothing. -/
def runScanAux (i : Nat) (st : RunSt) : List Str → RunSt
  | [] => st
  | l :: ls => runScanAux (i + 1) (runStep i st l) ls

def runScan (lines : List Str) : List Warn :=
  (runScanAux 1 ⟨[], false, 0, 0⟩ lines).warns

/-- Model of `GeminiClient._validate_workflow_completeness`.  `yamlErr` is the
outcome of the external `yaml.safe_load(content)` call: `some e` when the
parser raised `YAMLError` with message `e`, `none` when it succeeded. -/
def validateWorkflowCompleteness (content : Str) (yamlErr : Option Str) :
    List Warn :=
  let lines := splitLines (pyStrip content)
  if lines = [] then [Warn.empty]
  else
    let lastLine := pyStrip (lines.getLastD [])
    let w1 := truncationIndicators.filterMap fun ind =>
      if strIn ind lastLine then some (Warn.truncated ind) else none
    let indentLevel := lastLine.length - (pyLStrip lastLine).length
    let w2 := if indentLevel > 2 then [Warn.deepIndent] else []
    let w3 := if lastLine.getLast? = some ':' then [Warn.danglingKey] else []
    let w4 := runScan lines
    let w5 :=
      match yamlErr with
      | some e => [Warn.parseError ((splitLines e).headD [])]
      | none => []
    w1 ++ w2 ++ w3 ++ w4 ++ w5

/-! ## The decomposition planner: `generate_workflow` and friends

The planner works on the outcome of `yaml.safe_load(circleci_config)`.
PyYAML is external, so the parsed document is a parameter of type
`Option Yaml` (`none` models a raised parse error).  Mapping keys are
modelled as strings, numbers as rationals (Python ints and floats compare
equal through the same numeric value). -/

/-- A loosely-typed parsed document, as `yaml.safe_load` returns it. -/
inductive Yaml where
  | null : Yaml
  | bool : Bool → Yaml
  | num : Rat → Yaml
  | str : Str → Yaml
  | seq : List Yaml → Yaml
  | map : List (Str × Yaml) → Yaml

/-- Python truthiness of a parsed value. -/
def truthy : Yaml → Bool
  | .null => false
  | .bool b => b
  | .num q => ¬ q = 0
  | .str s => ¬ s = []
  | .seq l => ¬ l.isEmpty
  | .map l => ¬ l.isEmpty

/-- Python `len(v)`: `none` when `len` raises `TypeError`. -/
def pyLen : Yaml → Option Nat
  | .str s => some s.length
  | .seq l => some l.length
  | .map l => some l.length
  | _ => none

/-- Python iteration `for x in v`: `none` when the value is not iterable.
Iterating a dict yields its keys, iterating a string yields its
one-character strings. -/
def pyIter : Yaml → Option (List Yaml)
  | .seq l => some l
  | .map l => some (l.map fun p => .str p.1)
  | .str s => some (s.map fun c => .str [c])
  | _ => none

/-- Python `==` between a hashable scalar (the only shapes a collected job
reference can take) and an arbitrary value; `True == 1` and `2 == 2.0`
hold through the numeric value. -/
def pyEqAtom (r e : Yaml) : Bool :=
  match r, e with
  | .null, .null => true
  | .bool a, .bool b => a = b
  | .bool a, .num q => (if a then (1 : Rat) else 0) = q
  | .num q, .bool b => q = (if b then (1 : Rat) else 0)
  | .num a, .num b => a = b
  | .str a, .str b => a = b
  | _, _ => false

/-- Exceptions that can escape `_generate_workflows_individually`; the bare
`except:` of `generate_workflow` catches all of them alike. -/
inductive PyExc where
  | typeError : PyExc
  | indexError : PyExc
  | gemini : Str → PyExc

/-- The loop collecting `referenced_jobs` from `workflow_config["jobs"]`:
a dict entry contributes its first key (raising `IndexError` when empty),
a list entry is unhashable and raises `TypeError` on `set.add`, anything
else is added as-is.  (CPython iterates the resulting set in unspecified
order; the model keeps first-add order and skips the set's deduplication,
which is unobservable through the later key-indexed dict comprehension.) -/
def collectJobRefs : List Yaml → Except PyExc (List Yaml)
  | [] => .ok []
  | e :: es =>
    match e with
    | .map [] => .error .indexError
    | .map ((k, _) :: _) => (collectJobRefs es).map fun r => .str k :: r
    | .seq _ => .error .typeError
    | x => (collectJobRefs es).map fun r => x :: r

/-- Model of `referenced_jobs` for one workflow entry: only a dict `workflow_config`
with a `"jobs"` key is scanned; iterating a non-iterable `"jobs"` value
raises. -/
def workflowJobRefs (wcfg : Yaml) : Except PyExc (List Yaml) :=
  match wcfg with
  | .map entries =>
    match List.lookup "jobs".data entries with
    | none => .ok []
    | some jv =>
      match pyIter jv with
      | none => .error .typeError
      | some items => collectJobRefs items
  | _ => .ok []

/-- Drop later pairs whose key already occurred (a dict comprehension keyed
on equal names keeps one entry; the values tied to equal keys coincide
here, so keeping the first is the dict's behaviour). -/
def dedupKeys : List (Str × Yaml) → List (Str × Yaml)
  | [] => []
  | (k, v) :: rest => (k, v) :: (dedupKeys rest).filter fun p => ¬ p.1 = k

/-- The dict comprehension
`{job: jobs_section[job] for job in referenced_jobs if job in jobs_section}`.
With a dict `jobs_section` it never raises; membership in a list or
substring membership in a string leads to a raise at the indexing (or at
the `in` itself for non-string refs against a string), and `in` against a
scalar raises immediately.  (A whole-number ref indexing into a list
`jobs_section` would make a non-string artifact key, which the model's
string-keyed maps cannot carry; no workflow document exercises it and it
is collapsed to `TypeError` here.) -/
def buildMinimalJobs (jobsSection : Yaml) (refs : List Yaml) :
    Except PyExc (List (Str × Yaml)) :=
  match jobsSection with
  | .map js =>
    .ok (dedupKeys (refs.filterMap fun r =>
      match r with
      | .str s => (List.lookup s js).map fun v => (s, v)
      | _ => none))
  | .seq l =>
    if refs.any (fun r => l.any fun e => pyEqAtom r e) then .error .typeError
    else .ok []
  | .str t =>
    if refs.any (fun r => match r with | .str _ => false | _ => true) then
      .error .typeError
    else if refs.any (fun r => match r with
        | .str s => strIn s t
        | _ => false) then
      .error .typeError
    else .ok []
  | _ => if refs.isEmpty then .ok [] else .error .typeError

/-- The `minimal_config` built for one workflow: format version (default
`2.1`), the verbatim orbs section, only the referenced job bodies, and the
single workflow entry. -/
def minimalConfig (top : List (Str × Yaml)) (jobsMinimal : List (Str × Yaml))
    (name : Str) (wcfg : Yaml) : Yaml :=
  .map [("version".data, (List.lookup "version".data top).getD (.num (21 / 10))),
        ("orbs".data, (List.lookup "orbs".data top).getD (.map [])),
        ("jobs".data, .map jobsMinimal),
        ("workflows".data, .map [(name, wcfg)])]

/-- The literal text of `_generate_all_workflows`'s prompt up to the
`{examples}` interpolation. -/
def batchP1 : Str := "Convert this CircleCI configuration to GitHub Actions workflows.\n\nMOST IMPORTANT RULE - READ THIS FIRST:\nWhen you see a \x27run:\x27 or \x27command:\x27 in CircleCI, you MUST copy the ENTIRE command to GitHub Actions.\nCOUNT the lines in each CircleCI command and ensure the same number appears in GitHub Actions.\nNEVER write \"run: |\" followed by nothing or fewer lines than the original.\nThis is the #1 priority - complete commands are more important than anything else.\n\nSPECIAL ATTENTION TO CURL AND MULTI-LINE COMMANDS:\n- Curl commands with backslash line continuations (\\) MUST include ALL lines\n- If CircleCI has: curl -X POST \\ -H \"header\" \\ -d \"data\" URL\n- GitHub Actions MUST have: curl -X POST \\ -H \"header\" \\ -d \"data\" URL (all lines)\n- NEVER truncate curl commands - copy every single line including all headers, data, and the URL\n- Multi-line bash scripts with pipes (|) MUST be copied completely\n\nHere are some examples of successful migrations to follow:\n\n".data

/-- Between `{examples}` and `{circleci_config}` in the batch prompt. -/
def batchP2 : Str := "\n\nNow convert this CircleCI configuration:\n\nCircleCI Config:\n```yaml\n".data

/-- The batch prompt after the `{circleci_config}` interpolation. -/
def batchP3 : Str := "\n```\n\nIMPORTANT INSTRUCTIONS:\n1. Generate complete, production-ready GitHub Actions workflow YAML files\n2. Follow the exact patterns shown in the examples above\n3. Use OIDC authentication (never API tokens or credentials)\n4. For PyPI publishing: NEVER use twine - only use pypa/gh-action-pypi-publish@release/v1\n5. For Docker: Use mozilla-it/deploy-actions/docker-push@v4.3.2\n6. For ID tokens: Use token_format: \x27id_token\x27 and export GOOGLE_GHA_ID_TOKEN\n7. Preserve all job dependencies and workflow logic from CircleCI\n8. Use consistent naming: match CircleCI job names where possible\n\nCRITICAL REQUIREMENTS:\n\n1. COPY ALL COMMAND LINES:\n   - Look at EACH \x27run:\x27 or \x27command:\x27 in CircleCI\n   - Count how many lines of bash/shell code it has\n   - Copy ALL those lines to the GitHub Actions \x27run:\x27 field\n   - If you copy fewer lines, the migration is BROKEN\n\n2. GENERATE ALL STEPS:\n   - Every CircleCI step becomes a GitHub Actions step\n   - If CircleCI job has 10 steps, GitHub Actions must have 10 steps\n   - Never skip steps\n\n3. COMPLETE WORKFLOWS:\n   - Finish each workflow file completely\n   - Don\x27t cut off mid-file\n\nCRITICAL OUTPUT REQUIREMENTS:\n- Return ONLY valid YAML workflow files - NO commentary, explanations, or notes\n- DO NOT add bullet points, markdown text, or explanations after the YAML\n- DO NOT include migration notes or changes documentation in the output\n- Each file should contain ONLY the workflow YAML, nothing else\n\nNEVER GENERATE PLACEHOLDER WORKFLOWS:\n- Do NOT create jobs named \"placeholder\" or steps with \"echo \x27This workflow is currently empty\x27\"\n- Do NOT create workflows with \"run: echo \x27TODO\x27\" or similar placeholders\n- Every job and step must be a real conversion from the CircleCI config\n- You MUST convert ALL jobs and workflows - do not skip or omit any CI tasks\n\nReturn in this exact format:\nFILENAME: <filename.yml>\n```yaml\n<complete workflow content - PURE YAML ONLY>\n```\n\nFILENAME: <next-file.yml>\n```yaml\n<complete workflow content - PURE YAML ONLY>\n```\n\nGenerate one workflow file per CircleCI workflow. Be consistent and deterministic.\nNO TEXT OR COMMENTARY AFTER THE YAML CODE BLOCKS.\n".data

/-- The per-workflow prompt of `_generate_workflows_individually` up to the
`{examples}` interpolation. -/
def indP1 : Str := "Convert this CircleCI workflow to a GitHub Actions workflow.\n\nMOST IMPORTANT RULE - READ THIS FIRST:\nWhen you see a \x27run:\x27 or \x27command:\x27 in CircleCI, you MUST copy the ENTIRE command to GitHub Actions.\nCOUNT the lines in each CircleCI command and ensure the same number appears in GitHub Actions.\nNEVER write \"run: |\" followed by nothing or fewer lines than the original.\nThis is the #1 priority - complete commands are more important than anything else.\n\nSPECIAL ATTENTION TO CURL AND MULTI-LINE COMMANDS:\n- Curl commands with backslash line continuations (\\) MUST include ALL lines\n- If CircleCI has: curl -X POST \\ -H \"header\" \\ -d \"data\" URL\n- GitHub Actions MUST have: curl -X POST \\ -H \"header\" \\ -d \"data\" URL (all lines)\n- NEVER truncate curl commands - copy every single line including all headers, data, and the URL\n- Multi-line bash scripts with pipes (|) MUST be copied completely\n\nHere are some examples of successful migrations to follow:\n\n".data

/-- Between `{examples}` and `{minimal_yaml}` in the per-workflow prompt. -/
def indP2 : Str := "\n\nNow convert this CircleCI workflow:\n\nCircleCI Config (single workflow):\n```yaml\n".data

/-- Between `{minimal_yaml}` and `{workflow_name}` in the per-workflow
prompt. -/
def indP3 : Str := "\n```\n\nIMPORTANT INSTRUCTIONS:\n1. Generate complete, production-ready GitHub Actions workflow YAML file\n2. Follow the exact patterns shown in the examples above\n3. Use OIDC authentication (never API tokens or credentials)\n4. For PyPI publishing: NEVER use twine - only use pypa/gh-action-pypi-publish@release/v1\n5. For Docker: Use mozilla-it/deploy-actions/docker-push@v4.3.2\n6. For ID tokens: Use token_format: \x27id_token\x27 and export GOOGLE_GHA_ID_TOKEN\n7. Preserve all job dependencies and workflow logic from CircleCI\n8. Use consistent naming: match CircleCI job names where possible\n\nCRITICAL REQUIREMENTS:\n\n1. COPY ALL COMMAND LINES:\n   - Look at EACH \x27run:\x27 or \x27command:\x27 in CircleCI\n   - Count how many lines of bash/shell code it has\n   - Copy ALL those lines to the GitHub Actions \x27run:\x27 field\n   - If you copy fewer lines, the migration is BROKEN\n\n2. GENERATE ALL STEPS:\n   - Every CircleCI step becomes a GitHub Actions step\n   - If CircleCI job has 10 steps, GitHub Actions must have 10 steps\n   - Never skip steps\n\n3. COMPLETE WORKFLOWS:\n   - Finish each workflow file completely\n   - Don\x27t cut off mid-file\n\nCRITICAL OUTPUT REQUIREMENTS:\n- Return ONLY valid YAML workflow file - NO commentary, explanations, or notes\n- DO NOT add bullet points, markdown text, or explanations after the YAML\n- DO NOT include migration notes or changes documentation in the output\n- The file should contain ONLY the workflow YAML, nothing else\n\nNEVER GENERATE PLACEHOLDER WORKFLOWS:\n- Do NOT create jobs named \"placeholder\" or steps with \"echo \x27This workflow is currently empty\x27\"\n- Do NOT create workflows with \"run: echo \x27TODO\x27\" or similar placeholders\n- Every job and step must be a real conversion from the CircleCI config\n- You MUST convert ALL jobs and workflows - do not skip or omit any CI tasks\n\nReturn in this exact format:\nFILENAME: ".data

/-- The per-workflow prompt after the `{workflow_name}` interpolation. -/
def indP4 : Str := ".yml\n```yaml\n<complete workflow content - PURE YAML ONLY>\n```\n\nGenerate one complete workflow file. Be consistent and deterministic.\nNO TEXT OR COMMENTARY AFTER THE YAML CODE BLOCK.\n".data

/-- The user message of `_generate_all_workflows` with `{examples}` and
`{circleci_config}` interpolated. -/
def allWorkflowsPrompt (examples orig : Str) : Str :=
  batchP1 ++ examples ++ batchP2 ++ orig ++ batchP3

/-- The user message of one iteration of
`_generate_workflows_individually`. -/
def individualPrompt (examples minimalYaml name : Str) : Str :=
  indP1 ++ examples ++ indP2 ++ minimalYaml ++ indP3 ++ name ++ indP4

/-- The `for workflow_name, workflow_config in actual_workflows.items()`
loop.  `gem` is `self.client.models.generate_content` (the transport),
already composed with `_call_gemini`'s prepending of the system prompt;
`dump` is `yaml.dump(..., default_flow_style=False, sort_keys=False)`.
The returned list is the sequence of full prompts sent, in order; an
exception aborts the loop and carries past the remaining entries.
Validation warnings are printed to stderr and do not affect the value. -/
def genLoop (gem : Str → Except Str Str) (sys examples : Str)
    (dump : Yaml → Str) (top : List (Str × Yaml)) (jobsSection : Yaml)
    (acc : List (Str × Str)) :
    List (Str × Yaml) → List Str × Except PyExc (List (Str × Str))
  | [] => ([], .ok acc)
  | (name, wcfg) :: rest =>
    match workflowJobRefs wcfg with
    | .error e => ([], .error e)
    | .ok refs =>
      match buildMinimalJobs jobsSection refs with
      | .error e => ([], .error e)
      | .ok mj =>
        let minimal := minimalConfig top mj name wcfg
        let full := sys ++ "\n\n".data ++ individualPrompt examples (dump minimal) name
        match gem full with
        | .error m => ([full], .error (.gemini m))
        | .ok resp =>
          let acc' := dictUpdate acc (parseWorkflows resp)
          let next := genLoop gem sys examples dump top jobsSection acc' rest
          (full :: next.1, next.2)

/-- Model of `GeminiClient._generate_workflows_individually`: filter out the
reserved `version` key, return an empty map without any request when
nothing remains, otherwise generate each workflow separately and merge
with later names overwriting earlier. -/
def genIndividually (gem : Str → Except Str Str) (sys examples : Str)
    (dump : Yaml → Str) (top : List (Str × Yaml))
    (wsEntries : List (Str × Yaml)) :
    List Str × Except PyExc (List (Str × Str)) :=
  let jobsSection := (List.lookup "jobs".data top).getD (.map [])
  let actual := wsEntries.filter fun p => ¬ p.1 = "version".data
  if actual.isEmpty then ([], .ok [])
  else genLoop gem sys examples dump top jobsSection [] actual

/-- The `try:` block of `generate_workflow`: parse outcome inspection and,
when the multi-workflow condition holds, the whole per-workflow
generation.  `(calls, some m)` models the block returning `m`;
`(calls, none)` models either falling through without a return or an
exception swallowed by the bare `except: pass` — both continue into the
batch path, keeping any requests already issued. -/
def tryIndividualPath (gem : Str → Except Str Str) (sys examples : Str)
    (dump : Yaml → Str) (parsed : Option Yaml) :
    List Str × Option (List (Str × Str)) :=
  match parsed with
  | some (.map top) =>
    let ws := (List.lookup "workflows".data top).getD (.map [])
    if truthy ws then
      match pyLen ws with
      | some n =>
        if n > 1 then
          match ws with
          | .map wsE =>
            match genIndividually gem sys examples dump top wsE with
            | (calls, .ok m) => (calls, some m)
            | (calls, .error _) => (calls, none)
          | _ => ([], none)
        else ([], none)
      | none => ([], none)
    else ([], none)
  | _ => ([], none)

/-- Model of `GeminiClient.generate_workflow`.  `parsed` is the outcome of
`yaml.safe_load(circleci_config)` (`none` when it raised); `orig` is the
raw `circleci_config` text.  The whole multi-workflow path runs inside
`try: ... except: pass`, so any exception there — including a transport
failure from the generation service — falls through to the single batch
request; only a failure of that final batch request escapes.  The first
component lists the full prompts sent, in order. -/
def generateWorkflow (gem : Str → Except Str Str) (sys examples : Str)
    (dump : Yaml → Str) (parsed : Option Yaml) (orig : Str) :
    List Str × Except Str (List (Str × Str)) :=
  match tryIndividualPath gem sys examples dump parsed with
  | (calls, some m) => (calls, .ok m)
  | (calls, none) =>
    let full := sys ++ "\n\n".data ++ allWorkflowsPrompt examples orig
    match gem full with
    | .ok resp => (calls ++ [full], .ok (parseWorkflows resp))
    | .error e => (calls ++ [full], .error e)

/-! ## Supporting lemmas about the segmenter -/

theorem pwStep_not_marker (st : PWState) (l : Str)
    (hl : "FILENAME:".data.isPrefixOf l = false) :
    (pwStep st l).workflows = st.workflows ∧
      (pwStep st l).currentFile = st.currentFile := by
  unfold pwStep
  simp only [hl, Bool.false_eq_true, if_false]
  split
  · exact ⟨rfl, rfl⟩
  · split
    · exact ⟨rfl, rfl⟩
    · split
      · exact ⟨rfl, rfl⟩
      · exact ⟨rfl, rfl⟩

theorem pw_foldl_no_marker (ls : List Str) (st : PWState)
    (h : ∀ l ∈ ls, "FILENAME:".data.isPrefixOf l = false) :
    (ls.foldl pwStep st).workflows = st.workflows ∧
      (ls.foldl pwStep st).currentFile = st.currentFile := by
  induction ls generalizing st with
  | nil => exact ⟨rfl, rfl⟩
  | cons l ls ih =>
    have hstep := pwStep_not_marker st l (h l (by simp))
    have hrest := ih (pwStep st l) (fun x hx => h x (by simp [hx]))
    rw [List.foldl_cons]
    exact ⟨hrest.1.trans hstep.1, hrest.2.trans hstep.2⟩

theorem not_isPrefixOf_of_extends (p q l : Str) (hpq : p.isPrefixOf q = true)
    (h : p.isPrefixOf l = false) : q.isPrefixOf l = false := by
  cases hql : q.isPrefixOf l with
  | false => rfl
  | true =>
    rw [List.isPrefixOf_iff_prefix] at hpq hql
    have : p.isPrefixOf l = true :=
      List.isPrefixOf_iff_prefix.mpr (hpq.trans hql)
    rw [this] at h
    exact absurd h (by simp)

theorem pwStep_marker (st : PWState) (l : Str)
    (h : "FILENAME:".data.isPrefixOf l = true) :
    pwStep st l =
      ⟨pwFlush st, some (pyStrip (replaceAll "FILENAME:".data [] l)),
        [], false⟩ := by
  simp [pwStep, h]

theorem pwStep_content (st : PWState) (l : Str)
    (h1 : "FILENAME:".data.isPrefixOf l = false)
    (h2 : "```".data.isPrefixOf l = false)
    (hcf : truthyCF st.currentFile = true) (hcb : st.inCodeBlock = true) :
    pwStep st l = { st with currentContent := st.currentContent ++ [l] } := by
  have hy := not_isPrefixOf_of_extends "```".data "```yaml".data l (by decide) h2
  have hm := not_isPrefixOf_of_extends "```".data "```yml".data l (by decide) h2
  simp [pwStep, h1, h2, hy, hm, hcf, hcb]

/-- C3: segmenting (with cleaning) the two-workflow example yields exactly
the two-entry map, and any response without a `FILENAME:` marker line
segments to the empty map. -/
theorem C3_segmentation_example_and_no_marker :
    parseWorkflows "FILENAME: a.yml\n```yaml\nfoo: 1\n```\nFILENAME: b.yml\n```yaml\nbar: 2\n```".data
        = [("a.yml".data, "foo: 1".data), ("b.yml".data, "bar: 2".data)] ∧
      ∀ resp : Str,
        (∀ l ∈ splitLines resp, "FILENAME:".data.isPrefixOf l = false) →
        parseWorkflows resp = [] := by
  constructor
  · decide
  · intro resp h
    have hinv := pw_foldl_no_marker (splitLines resp) ⟨[], none, [], false⟩ h
    unfold parseWorkflows
    simp only [pwFlush, hinv.1, hinv.2]

/-- Witness for C3's quantified conjunct at a concrete marker-free
response. -/
theorem C3_witness : parseWorkflows "hello\nworld".data = [] :=
  C3_segmentation_example_and_no_marker.2 "hello\nworld".data (by decide)

/-! ## Lines and joining -/

theorem splitLines_nil : splitLines [] = [[]] := rfl

theorem splitLines_cons_nl (cs : Str) :
    splitLines ('\n' :: cs) = [] :: splitLines cs := by
  simp [splitLines]

theorem splitLines_cons_of_ne (c : Char) (cs : Str) (h : Str)
    (tl : List Str) (hc : c ≠ '\n') (he : splitLines cs = h :: tl) :
    splitLines (c :: cs) = (c :: h) :: tl := by
  simp [splitLines, hc, he]

theorem joinNL_cons_cons (a b : Str) (t : List Str) :
    joinNL (a :: b :: t) = a ++ '\n' :: joinNL (b :: t) := rfl

theorem splitLines_ne_nil (s : Str) : splitLines s ≠ [] := by
  induction s with
  | nil => simp [splitLines]
  | cons c cs ih =>
    unfold splitLines
    by_cases hc : c = '\n'
    · simp [hc]
    · simp only [hc, if_false]
      cases he : splitLines cs with
      | nil => simp
      | cons h t => simp

theorem splitLines_append_nl (a b : Str) :
    splitLines (a ++ '\n' :: b) = splitLines a ++ splitLines b := by
  induction a with
  | nil => simp [splitLines_cons_nl, splitLines_nil]
  | cons c cs ih =>
    by_cases hc : c = '\n'
    · subst hc
      rw [List.cons_append, splitLines_cons_nl, splitLines_cons_nl, ih,
        List.cons_append]
    · obtain ⟨h, tl, he⟩ : ∃ h tl, splitLines cs = h :: tl := by
        cases hcs : splitLines cs with
        | nil => exact absurd hcs (splitLines_ne_nil cs)
        | cons h tl => exact ⟨h, tl, rfl⟩
      have he' : splitLines (cs ++ '\n' :: b) = h :: (tl ++ splitLines b) := by
        rw [ih, he, List.cons_append]
      rw [List.cons_append, splitLines_cons_of_ne c _ h _ hc he',
        splitLines_cons_of_ne c cs h tl hc he, List.cons_append]

theorem splitLines_no_nl (l : Str) (h : '\n' ∉ l) : splitLines l = [l] := by
  induction l with
  | nil => rfl
  | cons c cs ih =>
    have hc : c ≠ '\n' := fun e => h (by simp [e])
    have hcs := ih (fun m => h (by simp [m]))
    rw [splitLines_cons_of_ne c cs cs [] hc hcs]

theorem splitLines_joinNL (ls : List Str) (h0 : ls ≠ [])
    (h : ∀ l ∈ ls, '\n' ∉ l) : splitLines (joinNL ls) = ls := by
  induction ls with
  | nil => exact absurd rfl h0
  | cons l ls ih =>
    cases ls with
    | nil => exact splitLines_no_nl l (h l (by simp))
    | cons m ms =>
      rw [joinNL_cons_cons, splitLines_append_nl,
        splitLines_no_nl l (h l (by simp)),
        ih (by simp) (fun x hx => h x (by simp [hx]))]
      rfl

theorem joinNL_splitLines (s : Str) : joinNL (splitLines s) = s := by
  induction s with
  | nil => rfl
  | cons c cs ih =>
    by_cases hc : c = '\n'
    · subst hc
      rw [splitLines_cons_nl]
      obtain ⟨h, tl, he⟩ : ∃ h tl, splitLines cs = h :: tl := by
        cases hcs : splitLines cs with
        | nil => exact absurd hcs (splitLines_ne_nil cs)
        | cons h tl => exact ⟨h, tl, rfl⟩
      rw [he, joinNL_cons_cons, List.nil_append]
      rw [he] at ih
      rw [ih]
    · obtain ⟨h, tl, he⟩ : ∃ h tl, splitLines cs = h :: tl := by
        cases hcs : splitLines cs with
        | nil => exact absurd hcs (splitLines_ne_nil cs)
        | cons h tl => exact ⟨h, tl, rfl⟩
      rw [splitLines_cons_of_ne c cs h tl hc he]
      rw [he] at ih
      cases tl with
      | nil =>
        simp only [joinNL] at ih ⊢
        rw [ih]
      | cons t ts =>
        rw [joinNL_cons_cons] at ih ⊢
        rw [List.cons_append, ih]

theorem mem_splitLines_no_nl (s : Str) : ∀ l ∈ splitLines s, '\n' ∉ l := by
  induction s with
  | nil => intro l hl; simp [splitLines_nil] at hl; simp [hl]
  | cons c cs ih =>
    by_cases hc : c = '\n'
    · subst hc
      rw [splitLines_cons_nl]
      intro l hl
      rcases List.mem_cons.mp hl with h | h
      · simp [h]
      · exact ih l h
    · obtain ⟨h, tl, he⟩ : ∃ h tl, splitLines cs = h :: tl := by
        cases hcs : splitLines cs with
        | nil => exact absurd hcs (splitLines_ne_nil cs)
        | cons h tl => exact ⟨h, tl, rfl⟩
      rw [splitLines_cons_of_ne c cs h tl hc he]
      intro l hl
      rcases List.mem_cons.mp hl with h1 | h1
      · subst h1
        intro hmem
        rcases List.mem_cons.mp hmem with h2 | h2
        · exact hc h2.symm
        · exact ih h (by rw [he]; simp) h2
      · exact ih l (by rw [he]; simp [h1])

theorem pwStep_fence_open (st : PWState) :
    pwStep st "```yaml".data = { st with inCodeBlock := true } := by
  unfold pwStep
  rw [if_neg (by decide), if_pos (by decide)]

theorem pwStep_fence_close (st : PWState) (hcb : st.inCodeBlock = true) :
    pwStep st "```".data = { st with inCodeBlock := false } := by
  unfold pwStep
  rw [if_neg (by decide), if_neg (by decide), if_pos (by simp [hcb])]

/-- C4 counterexample: the same name introduced twice, the second fence
empty.  The second occurrence buffers no content, so the flush guard
`if current_file and current_content` skips it and the earlier content
survives — the later occurrence does not replace the earlier one. -/
theorem C4_counterexample :
    parseWorkflows "FILENAME: a.yml\n```yaml\nfoo: 1\n```\nFILENAME: a.yml\n```yaml\n```".data
      = [("a.yml".data, "foo: 1".data)] := by
  decide

theorem pwFlush_some (w : List (Str × Str)) (f : Str) (cc : List Str)
    (b : Bool) (hf : f ≠ []) (hcc : cc ≠ [])
    (hcl : cleanYamlContent cc ≠ []) :
    pwFlush ⟨w, some f, cc, b⟩ = dictInsert w f (cleanYamlContent cc) := by
  simp only [pwFlush]
  rw [if_pos ⟨hf, hcc⟩, if_pos hcl]

/-- C4 amended: when the later occurrence's cleaned content is non-empty,
it fully replaces the earlier occurrence's entry (one entry, later
content); an empty later occurrence leaves the earlier entry in place. -/
theorem C4_amended_last_write_wins (c1 c2 : Str)
    (hc1nl : '
' ∉ c1) (hc2nl : '
' ∉ c2)
    (h1m : "FILENAME:".data.isPrefixOf c1 = false)
    (h1f : "```".data.isPrefixOf c1 = false)
    (h2m : "FILENAME:".data.isPrefixOf c2 = false)
    (h2f : "```".data.isPrefixOf c2 = false)
    (h1c : cleanYamlContent [c1] ≠ [])
    (h2c : cleanYamlContent [c2] ≠ []) :
    parseWorkflows (joinNL ["FILENAME: a.yml".data, "```yaml".data, c1,
        "```".data, "FILENAME: a.yml".data, "```yaml".data, c2, "```".data])
      = [("a.yml".data, cleanYamlContent [c2])] := by
  have hsplit : splitLines (joinNL ["FILENAME: a.yml".data, "```yaml".data,
      c1, "```".data, "FILENAME: a.yml".data, "```yaml".data, c2,
      "```".data]) = ["FILENAME: a.yml".data, "```yaml".data, c1, "```".data,
      "FILENAME: a.yml".data, "```yaml".data, c2, "```".data] := by
    refine splitLines_joinNL _ (by simp) ?_
    intro l hl
    simp only [List.mem_cons, List.not_mem_nil, or_false] at hl
    rcases hl with h | h | h | h | h | h | h | h <;> subst h
    · decide
    · decide
    · exact hc1nl
    · decide
    · decide
    · decide
    · exact hc2nl
    · decide
  unfold parseWorkflows
  rw [hsplit]
  simp only [List.foldl_cons, List.foldl_nil]
  have e1 : pwStep ⟨[], none, [], false⟩ "FILENAME: a.yml".data
      = ⟨[], some "a.yml".data, [], false⟩ := rfl
  have e2 : pwStep ⟨[], some "a.yml".data, [], false⟩ "```yaml".data
      = ⟨[], some "a.yml".data, [], true⟩ := by
    rw [pwStep_fence_open]
  have e3 : pwStep ⟨[], some "a.yml".data, [], true⟩ c1
      = ⟨[], some "a.yml".data, [c1], true⟩ := by
    rw [pwStep_content _ c1 h1m h1f (by decide) rfl]
    rfl
  have e4 : pwStep ⟨[], some "a.yml".data, [c1], true⟩ "```".data
      = ⟨[], some "a.yml".data, [c1], false⟩ := by
    rw [pwStep_fence_close _ rfl]
  have e5 : pwStep ⟨[], some "a.yml".data, [c1], false⟩
      "FILENAME: a.yml".data
      = ⟨[("a.yml".data, cleanYamlContent [c1])], some "a.yml".data, [],
          false⟩ := by
    rw [pwStep_marker _ _ (by decide)]
    have hf : pwFlush ⟨[], some "a.yml".data, [c1], false⟩
        = [("a.yml".data, cleanYamlContent [c1])] := by
      rw [pwFlush_some _ _ _ _ (by decide) (by simp) h1c]
      simp [dictInsert]
    rw [hf]
    have hnm : pyStrip (replaceAll "FILENAME:".data [] "FILENAME: a.yml".data)
        = "a.yml".data := by decide
    rw [hnm]
  have e6 : pwStep ⟨[("a.yml".data, cleanYamlContent [c1])],
      some "a.yml".data, [], false⟩ "```yaml".data
      = ⟨[("a.yml".data, cleanYamlContent [c1])], some "a.yml".data, [],
          true⟩ := by
    rw [pwStep_fence_open]
  have e7 : pwStep ⟨[("a.yml".data, cleanYamlContent [c1])],
      some "a.yml".data, [], true⟩ c2
      = ⟨[("a.yml".data, cleanYamlContent [c1])], some "a.yml".data, [c2],
          true⟩ := by
    rw [pwStep_content _ c2 h2m h2f (by rfl) rfl]
    rfl
  have e8 : pwStep ⟨[("a.yml".data, cleanYamlContent [c1])],
      some "a.yml".data, [c2], true⟩ "```".data
      = ⟨[("a.yml".data, cleanYamlContent [c1])], some "a.yml".data, [c2],
          false⟩ := by
    rw [pwStep_fence_close _ rfl]
  rw [e1, e2, e3, e4, e5, e6, e7, e8]
  rw [pwFlush_some _ _ _ _ (by decide) (by simp) h2c]
  simp [dictInsert]

/-- Witness for C4's amended theorem at concrete contents. -/
theorem C4_amended_witness :
    parseWorkflows (joinNL ["FILENAME: a.yml".data, "```yaml".data,
        "foo: 1".data, "```".data, "FILENAME: a.yml".data, "```yaml".data,
        "bar: 2".data, "```".data])
      = [("a.yml".data, cleanYamlContent ["bar: 2".data])] :=
  C4_amended_last_write_wins "foo: 1".data "bar: 2".data (by decide)
    (by decide) (by decide) (by decide) (by decide) (by decide) (by decide)
    (by decide)

/-- C5: the validator never emits the empty-content warning.  The guard
`if not lines` is dead: `content.strip().split("\n")` is `[""]` for empty
content, never the empty list, so empty content yields no warning at
all. -/
theorem C5_empty_content_yields_no_warning :
    validateWorkflowCompleteness [] none = [] := by decide

/-- C6: the validator never emits the deep-indentation warning.  The
source computes `indent_level` on `lines[-1].strip()`, whose leading
whitespace is already gone, so the level is always `0`; a cleaned content
whose last line is indented six columns gets no warning. -/
theorem C6_deep_indent_tail_never_fires :
    validateWorkflowCompleteness "jobs:\n      build".data none = [] := by
  decide

/-- C7 counterexample, two instances of the claim refuted at concrete
inputs.  First: a `run:` block key at indentation 4 with an empty body
followed by a line at indentation 2 — equal-or-lower indentation, as the
claim reads — produces no warning, because the scan only closes a run
block at a column-zero line and counts the indented follower as body
content.  Second: even at column zero, a following line that is itself a
`run:` key produces no warning for the earlier key — the scan's
`startswith("run:")` branch comes first and restarts the state without
emitting — so only the second key (line 2, closed by `foo: 1`) is
reported and the line-1 key, whose body is also empty before the next
column-zero line, is not. -/
theorem C7_counterexample :
    validateWorkflowCompleteness "jobs:\n  a:\n    run: |\n  b: 1".data none
        = [] ∧
      validateWorkflowCompleteness "run: |\nrun: |\nfoo: 1".data none
        = [Warn.emptyRun 2] := by
  exact ⟨by decide, by decide⟩

/-! ## Supporting lemmas about the run-block scan -/

theorem run_not_prefixOf_blank_or_hash (s : Str)
    (h : s = [] ∨ "#".data.isPrefixOf s = true) :
    "run:".data.isPrefixOf s = false := by
  rcases h with h | h
  · subst h; decide
  · cases s with
    | nil => decide
    | cons c cs =>
      have hc : c = '#' := by
        have : ('#' == c) = true := by
          simpa [List.isPrefixOf] using h
        exact (beq_iff_eq.mp this).symm
      subst hc
      simp [List.isPrefixOf, show ('r' == '#') = false from rfl]

theorem runScanAux_append (xs ys : List Str) (i : Nat) (st : RunSt) :
    runScanAux i st (xs ++ ys)
      = runScanAux (i + xs.length) (runScanAux i st xs) ys := by
  induction xs generalizing i st with
  | nil => simp [runScanAux]
  | cons x xs ih =>
    rw [List.cons_append]
    show runScanAux (i + 1) (runStep i st x) (xs ++ ys) = _
    rw [ih]
    have h1 : i + (x :: xs).length = i + 1 + xs.length := by
      simp [List.length_cons]; omega
    rw [h1]
    rfl

theorem runStep_warns_mono (i : Nat) (st : RunSt) (l : Str) (w : Warn)
    (h : w ∈ st.warns) : w ∈ (runStep i st l).warns := by
  simp only [runStep]
  split_ifs <;>
    first
    | exact h
    | exact List.mem_append_left _ h

theorem runScanAux_warns_mono (ls : List Str) (i : Nat) (st : RunSt)
    (w : Warn) (h : w ∈ st.warns) : w ∈ (runScanAux i st ls).warns := by
  induction ls generalizing i st with
  | nil => exact h
  | cons l ls ih => exact ih _ _ (runStep_warns_mono i st l w h)

/-- Lines that are blank (or whitespace-led comments) neither close a run
block nor count as body content: the scan state passes through them
unchanged while a block with an empty body is open. -/
theorem runScanAux_empty_body (mids : List Str) (i : Nat)
    (ws : List Warn) (n : Nat)
    (hm : ∀ l ∈ mids,
      (l = [] ∨ ∃ c cs, l = c :: cs ∧ isWS c = true) ∧
        (pyStrip l = [] ∨ "#".data.isPrefixOf (pyStrip l) = true)) :
    runScanAux i ⟨ws, true, n, 0⟩ mids = ⟨ws, true, n, 0⟩ := by
  induction mids generalizing i with
  | nil => rfl
  | cons l ls ih =>
    have hl := hm l (by simp)
    have hrun : "run:".data.isPrefixOf (pyStrip l) = false :=
      run_not_prefixOf_blank_or_hash _ hl.2
    have hstep : runStep i ⟨ws, true, n, 0⟩ l = ⟨ws, true, n, 0⟩ := by
      unfold runStep
      rw [if_neg (by simp [hrun])]
      rw [if_pos rfl]
      have hcond : leavesRun l = false := by
        rcases hl.1 with h | ⟨c, cs, hcons, hws⟩
        · subst h; rfl
        · subst hcons; simp [leavesRun, hws]
      rw [if_neg (by simp [hcond])]
      rw [if_neg (by rcases hl.2 with h | h <;> simp [h])]
    show runScanAux (i + 1) (runStep i ⟨ws, true, n, 0⟩ l) ls = _
    rw [hstep]
    exact ih _ (fun x hx => hm x (by simp [hx]))

/-- Line-number bound: scanning the first lines can only have recorded
empty-run warnings for earlier line numbers, and the remembered run-key
line number stays below the current index. -/
def warnBound (N : Nat) (st : RunSt) : Prop :=
  (∀ n, Warn.emptyRun n ∈ st.warns → n < N) ∧ st.runLineNo < N

theorem mem_append_singleton_emptyRun (n m : Nat) (ws : List Warn)
    (hn : Warn.emptyRun n ∈ ws ++ [Warn.emptyRun m]) :
    Warn.emptyRun n ∈ ws ∨ n = m := by
  rcases List.mem_append.mp hn with h | h
  · exact Or.inl h
  · simp only [List.mem_singleton, Warn.emptyRun.injEq] at h
    exact Or.inr h

theorem runStep_bound (i : Nat) (st : RunSt) (l : Str)
    (h : warnBound i st) : warnBound (i + 1) (runStep i st l) := by
  obtain ⟨hw, hr⟩ := h
  simp only [runStep]
  split_ifs <;>
    refine ⟨fun n hn => ?_, ?_⟩ <;>
    first
      | exact Nat.lt_succ_of_lt (hw n hn)
      | exact Nat.lt_succ_self i
      | exact Nat.lt_succ_of_lt hr
      | exact (mem_append_singleton_emptyRun _ _ _ hn).elim
          (fun h' => Nat.lt_succ_of_lt (hw n h'))
          (fun h' => h' ▸ Nat.lt_succ_of_lt hr)

theorem runScanAux_bound (ls : List Str) (i : Nat) (st : RunSt)
    (h : warnBound i st) : warnBound (i + ls.length) (runScanAux i st ls) := by
  induction ls generalizing i st with
  | nil => simpa using h
  | cons l ls ih =>
    have := ih (i + 1) (runStep i st l) (runStep_bound i st l h)
    show warnBound (i + (ls.length + 1)) (runScanAux (i + 1) (runStep i st l) ls)
    have harith : i + (ls.length + 1) = i + 1 + ls.length := by omega
    rw [harith]
    exact this

theorem emptyRun_mem_validate (content : Str) (yErr : Option Str) (n : Nat)
    (hne : ¬ splitLines (pyStrip content) = []) :
    (Warn.emptyRun n ∈ validateWorkflowCompleteness content yErr ↔
      Warn.emptyRun n ∈ runScan (splitLines (pyStrip content))) := by
  simp only [validateWorkflowCompleteness]
  rw [if_neg hne]
  constructor
  · intro h
    simp only [List.mem_append] at h
    rcases h with (((h | h) | h) | h) | h
    · exfalso
      obtain ⟨a, _, ha⟩ := List.mem_filterMap.mp h
      split at ha <;> simp at ha
    · exfalso; split at h <;> simp at h
    · exfalso; split at h <;> simp at h
    · exact h
    · exfalso; cases yErr <;> simp at h
  · intro h
    simp only [List.mem_append]
    exact Or.inl (Or.inr h)

/-- C10: a run-block key whose empty body extends to the end of the
content (every following line is blank or a whitespace-led comment, no
column-zero line) produces no empty-run warning for its line: the scan's
closing test fires only at a column-zero line and there is no end-of-input
flush. -/
theorem C10_empty_run_block_at_end_unwarned (pre mids : List Str)
    (runLine : Str) (yErr : Option Str)
    (hnf : ∀ l ∈ pre ++ runLine :: mids, '\n' ∉ l)
    (hstrip : pyStrip (joinNL (pre ++ runLine :: mids))
      = joinNL (pre ++ runLine :: mids))
    (hrun : "run:".data.isPrefixOf (pyStrip runLine) = true)
    (hblock : ¬ ((pyStrip runLine).length > 5 ∧
      ¬ ((pyStrip runLine).getLast? = some '|' ∨
         (pyStrip runLine).getLast? = some '>')))
    (hmids : ∀ l ∈ mids,
      (l = [] ∨ ∃ c cs, l = c :: cs ∧ isWS c = true) ∧
        (pyStrip l = [] ∨ "#".data.isPrefixOf (pyStrip l) = true)) :
    Warn.emptyRun (pre.length + 1) ∉
      validateWorkflowCompleteness (joinNL (pre ++ runLine :: mids)) yErr := by
  intro hmem
  have hsl : splitLines (pyStrip (joinNL (pre ++ runLine :: mids)))
      = pre ++ runLine :: mids := by
    rw [hstrip]
    exact splitLines_joinNL _ (by simp) hnf
  rw [emptyRun_mem_validate _ _ _ (by rw [hsl]; simp)] at hmem
  rw [hsl] at hmem
  unfold runScan at hmem
  rw [runScanAux_append] at hmem
  have hbound : warnBound (1 + pre.length)
      (runScanAux 1 ⟨[], false, 0, 0⟩ pre) :=
    runScanAux_bound pre 1 _ ⟨fun n hn => absurd hn (by simp), by decide⟩
  have hstep : runStep (1 + pre.length) (runScanAux 1 ⟨[], false, 0, 0⟩ pre)
      runLine
      = ⟨(runScanAux 1 ⟨[], false, 0, 0⟩ pre).warns, true, 1 + pre.length,
          0⟩ := by
    simp only [runStep]
    rw [if_pos hrun, if_neg hblock]
  rw [show runScanAux (1 + pre.length) (runScanAux 1 ⟨[], false, 0, 0⟩ pre)
        (runLine :: mids)
      = runScanAux (1 + pre.length + 1)
          (runStep (1 + pre.length) (runScanAux 1 ⟨[], false, 0, 0⟩ pre)
            runLine) mids from rfl, hstep,
    runScanAux_empty_body mids _ _ _ hmids] at hmem
  have := hbound.1 _ hmem
  omega

/-- Witness for C10 at a concrete run block that is empty and reaches the
end of the content. -/
theorem C10_witness :
    Warn.emptyRun 2 ∉
      validateWorkflowCompleteness (joinNL ["jobs:".data, "  run: |".data])
        none :=
  C10_empty_run_block_at_end_unwarned ["jobs:".data] [] "  run: |".data none
    (by decide) (by decide) (by decide) (by decide) (by simp)

/-- C7 amended: the empty-run warning is emitted, with the 1-based line
number of the run key, when the empty body is followed by a column-zero
line that is not itself a `run:` key (not merely a line at equal-or-lower
indentation, and not a column-zero `run:` key, which restarts the scan
for itself without closing the previous block). -/
theorem C7_amended_empty_run_warn_on_column_zero (pre mids rest : List Str)
    (runLine cz : Str) (yErr : Option Str)
    (hnf : ∀ l ∈ pre ++ runLine :: (mids ++ cz :: rest), '\n' ∉ l)
    (hstrip : pyStrip (joinNL (pre ++ runLine :: (mids ++ cz :: rest)))
      = joinNL (pre ++ runLine :: (mids ++ cz :: rest)))
    (hrun : "run:".data.isPrefixOf (pyStrip runLine) = true)
    (hblock : ¬ ((pyStrip runLine).length > 5 ∧
      ¬ ((pyStrip runLine).getLast? = some '|' ∨
         (pyStrip runLine).getLast? = some '>')))
    (hmids : ∀ l ∈ mids,
      (l = [] ∨ ∃ c cs, l = c :: cs ∧ isWS c = true) ∧
        (pyStrip l = [] ∨ "#".data.isPrefixOf (pyStrip l) = true))
    (hcz : leavesRun cz = true)
    (hczrun : "run:".data.isPrefixOf (pyStrip cz) = false) :
    Warn.emptyRun (pre.length + 1) ∈
      validateWorkflowCompleteness
        (joinNL (pre ++ runLine :: (mids ++ cz :: rest))) yErr := by
  have hsl : splitLines (pyStrip (joinNL (pre ++ runLine :: (mids ++ cz :: rest))))
      = pre ++ runLine :: (mids ++ cz :: rest) := by
    rw [hstrip]
    exact splitLines_joinNL _ (by simp) hnf
  rw [emptyRun_mem_validate _ _ _ (by rw [hsl]; simp), hsl]
  unfold runScan
  rw [runScanAux_append]
  have hstep : runStep (1 + pre.length)
      (runScanAux 1 ⟨[], false, 0, 0⟩ pre) runLine
      = ⟨(runScanAux 1 ⟨[], false, 0, 0⟩ pre).warns, true, 1 + pre.length,
          0⟩ := by
    simp only [runStep]
    rw [if_pos hrun, if_neg hblock]
  rw [show runScanAux (1 + pre.length) (runScanAux 1 ⟨[], false, 0, 0⟩ pre)
        (runLine :: (mids ++ cz :: rest))
      = runScanAux (1 + pre.length + 1)
          (runStep (1 + pre.length) (runScanAux 1 ⟨[], false, 0, 0⟩ pre)
            runLine) (mids ++ cz :: rest) from rfl, hstep,
    runScanAux_append]
  rw [runScanAux_empty_body mids _ _ _ hmids]
  have hczstep : runStep (1 + pre.length + 1 + mids.length)
      ⟨(runScanAux 1 ⟨[], false, 0, 0⟩ pre).warns, true, 1 + pre.length, 0⟩
      cz
      = ⟨(runScanAux 1 ⟨[], false, 0, 0⟩ pre).warns
          ++ [Warn.emptyRun (1 + pre.length)], false, 1 + pre.length, 0⟩ := by
    simp only [runStep]
    rw [if_neg (by simp [hczrun])]
    simp [hcz]
  rw [show runScanAux (1 + pre.length + 1 + mids.length)
        ⟨(runScanAux 1 ⟨[], false, 0, 0⟩ pre).warns, true, 1 + pre.length, 0⟩
        (cz :: rest)
      = runScanAux (1 + pre.length + 1 + mids.length + 1)
          (runStep (1 + pre.length + 1 + mids.length)
            ⟨(runScanAux 1 ⟨[], false, 0, 0⟩ pre).warns, true,
              1 + pre.length, 0⟩ cz) rest from rfl, hczstep]
  have : Warn.emptyRun (pre.length + 1) ∈
      (runScanAux 1 ⟨[], false, 0, 0⟩ pre).warns
        ++ [Warn.emptyRun (1 + pre.length)] := by
    rw [Nat.add_comm pre.length 1]
    exact List.mem_append_right _ (by simp)
  exact runScanAux_warns_mono rest _ _ _ this

/-- Witness for C7's amended theorem: `jobs:` then an empty `run: |` block
closed by a column-zero line reports line 2. -/
theorem C7_amended_witness :
    Warn.emptyRun 2 ∈
      validateWorkflowCompleteness
        (joinNL ["jobs:".data, "  run: |".data, "done: 1".data]) none :=
  C7_amended_empty_run_warn_on_column_zero ["jobs:".data] [] []
    "  run: |".data "done: 1".data none (by decide) (by decide) (by decide)
    (by decide) (by simp) (by decide) (by decide)

/-! ## Stripping lemmas -/

theorem dropWhile_idem (p : Char → Bool) (l : Str) :
    List.dropWhile p (List.dropWhile p l) = List.dropWhile p l := by
  induction l with
  | nil => rfl
  | cons c cs ih =>
    rw [List.dropWhile_cons]
    split
    · exact ih
    · rw [List.dropWhile_cons]
      simp_all

theorem pyLStrip_idem (l : Str) : pyLStrip (pyLStrip l) = pyLStrip l :=
  dropWhile_idem isWS l

theorem pyRStrip_idem (l : Str) : pyRStrip (pyRStrip l) = pyRStrip l := by
  unfold pyRStrip
  rw [List.reverse_reverse, dropWhile_idem]

theorem dropWhile_head_not (p : Char → Bool) (l : Str) (c : Char) (cs : Str)
    (h : List.dropWhile p l = c :: cs) : p c = false := by
  induction l with
  | nil => simp at h
  | cons a as ih =>
    rw [List.dropWhile_cons] at h
    split at h
    · exact ih h
    · cases h
      simp_all

theorem pyRStripPrefix (l : Str) : pyRStrip l <+: l := by
  unfold pyRStrip
  have h := List.dropWhile_suffix (l := l.reverse) isWS
  have h2 : (List.dropWhile isWS l.reverse).reverse <+: l.reverse.reverse := by
    rw [ List.reverse_prefix]
    exact h
  rwa [List.reverse_reverse] at h2

theorem pyLStrip_of_head_not_ws (c : Char) (cs : Str) (h : isWS c = false) :
    pyLStrip (c :: cs) = c :: cs := by
  unfold pyLStrip
  rw [List.dropWhile_cons, h]
  simp

theorem pyStrip_idem (l : Str) : pyStrip (pyStrip l) = pyStrip l := by
  show pyRStrip (pyLStrip (pyRStrip (pyLStrip l))) = pyRStrip (pyLStrip l)
  cases hL : pyLStrip l with
  | nil => rfl
  | cons c cs =>
    have hc : isWS c = false := dropWhile_head_not isWS _ c cs hL
    cases hR : pyRStrip (c :: cs) with
    | nil => rfl
    | cons d ds =>
      have hd : d = c := by
        have hpre := pyRStripPrefix (c :: cs)
        rw [hR] at hpre
        obtain ⟨t, ht⟩ := hpre
        cases ht; rfl
      subst hd
      rw [pyLStrip_of_head_not_ws d ds hc, ← hR, pyRStrip_idem]

theorem pyStrip_head_not_ws (s : Str) (c : Char) (cs : Str)
    (h : pyStrip s = c :: cs) : isWS c = false := by
  unfold pyStrip at h
  cases hL : pyLStrip s with
  | nil => rw [hL] at h; simp [pyRStrip] at h
  | cons a as =>
    have ha : isWS a = false := dropWhile_head_not isWS _ a as hL
    rw [hL] at h
    have hpre := pyRStripPrefix (a :: as)
    rw [h] at hpre
    obtain ⟨t, ht⟩ := hpre
    have : c = a := by cases ht; rfl
    subst this
    exact ha

theorem allWS_strip_nil (l : Str) (h : allWS l = true) : pyStrip l = [] := by
  unfold pyStrip pyLStrip pyRStrip
  have h1 : List.dropWhile isWS l = [] :=
    List.dropWhile_eq_nil_iff.mpr (fun x hx => by
      exact List.all_eq_true.mp h x hx)
  rw [h1]
  rfl

theorem exists_not_ws_of_strip_ne (l : Str) (h : pyStrip l ≠ []) :
    ∃ c ∈ l, isWS c = false := by
  by_contra hc
  push_neg at hc
  refine h (allWS_strip_nil l ?_)
  refine List.all_eq_true.mpr fun x hx => ?_
  have := hc x hx
  simpa using this

theorem lstrip_ws_pad (p x : Str) (hp : allWS p = true) :
    pyLStrip (p ++ x) = pyLStrip x := by
  induction p with
  | nil => rfl
  | cons c cs ih =>
    have hc : isWS c = true := by
      have := List.all_eq_true.mp hp c (by simp)
      simpa using this
    have hcs : allWS cs = true := by
      refine List.all_eq_true.mpr fun y hy => List.all_eq_true.mp hp y (by simp [hy])
    rw [List.cons_append]
    unfold pyLStrip
    rw [List.dropWhile_cons, hc]
    simp only [if_true]
    exact ih hcs

theorem rstrip_ws_suffix (x q : Str) (hq : allWS q = true) :
    pyRStrip (x ++ q) = pyRStrip x := by
  unfold pyRStrip
  rw [List.reverse_append]
  have hq' : allWS q.reverse = true := by
    refine List.all_eq_true.mpr fun y hy => List.all_eq_true.mp hq y (by simpa using hy)
  rw [show List.dropWhile isWS (q.reverse ++ x.reverse)
      = List.dropWhile isWS x.reverse from by
    have := lstrip_ws_pad q.reverse x.reverse hq'
    simpa [pyLStrip] using this]

theorem rstrip_append_keep (x y : Str) (hy : ∃ c ∈ y, isWS c = false) :
    pyRStrip (x ++ y) = x ++ pyRStrip y := by
  unfold pyRStrip
  rw [List.reverse_append]
  have hne : List.dropWhile isWS y.reverse ≠ [] := by
    intro hn
    obtain ⟨c, hc, hws⟩ := hy
    have := List.dropWhile_eq_nil_iff.mp hn c (by simpa using hc)
    rw [this] at hws
    exact absurd hws (by simp)
  rw [List.dropWhile_append]
  rw [if_neg (by simpa using hne)]
  rw [List.reverse_append, List.reverse_reverse]

theorem rstrip_decomp (l : Str) :
    ∃ q, l = pyRStrip l ++ q ∧ allWS q = true := by
  refine ⟨(List.takeWhile isWS l.reverse).reverse, ?_, ?_⟩
  · unfold pyRStrip
    rw [← List.reverse_append, List.takeWhile_append_dropWhile,
      List.reverse_reverse]
  · refine List.all_eq_true.mpr fun y hy => ?_
    exact List.mem_takeWhile_imp (by simpa using hy)

theorem strip_decomp (l : Str) :
    ∃ p q, l = p ++ pyStrip l ++ q ∧ allWS p = true ∧ allWS q = true := by
  obtain ⟨q, hq, hqws⟩ := rstrip_decomp (pyLStrip l)
  refine ⟨List.takeWhile isWS l, q, ?_, ?_, hqws⟩
  · unfold pyStrip
    calc l = List.takeWhile isWS l ++ List.dropWhile isWS l :=
          (List.takeWhile_append_dropWhile isWS l).symm
    _ = List.takeWhile isWS l ++ pyLStrip l := rfl
    _ = List.takeWhile isWS l ++ (pyRStrip (pyLStrip l) ++ q) := by rw [← hq]
    _ = List.takeWhile isWS l ++ pyRStrip (pyLStrip l) ++ q := by
          rw [List.append_assoc]
  · exact List.all_eq_true.mpr fun y hy => List.mem_takeWhile_imp hy

theorem strip_pad (p l q : Str) (hp : allWS p = true) (hq : allWS q = true) :
    pyStrip (p ++ l ++ q) = pyStrip l := by
  by_cases hl : ∃ c ∈ l, isWS c = false
  · have h1 : pyLStrip (p ++ (l ++ q)) = pyLStrip (l ++ q) :=
      lstrip_ws_pad p (l ++ q) hp
    have h2 : pyLStrip (l ++ q) = pyLStrip l ++ q := by
      unfold pyLStrip
      rw [List.dropWhile_append]
      rw [if_neg]
      simp only [List.isEmpty_iff]
      intro hn
      obtain ⟨c, hc, hws⟩ := hl
      have := List.dropWhile_eq_nil_iff.mp hn c hc
      rw [this] at hws
      exact absurd hws (by simp)
    unfold pyStrip
    rw [List.append_assoc, h1, h2, rstrip_ws_suffix _ q hq]
  · push_neg at hl
    have hlws : allWS l = true := by
      refine List.all_eq_true.mpr fun x hx => ?_
      have := hl x hx
      simpa using this
    have hall : allWS (p ++ l ++ q) = true := by
      refine List.all_eq_true.mpr fun x hx => ?_
      simp only [List.append_assoc, List.mem_append] at hx
      rcases hx with hx | hx | hx
      · exact List.all_eq_true.mp hp x hx
      · exact List.all_eq_true.mp hlws x hx
      · exact List.all_eq_true.mp hq x hx
    rw [allWS_strip_nil _ hall, allWS_strip_nil _ hlws]

theorem rstrip_snoc_ws (x : Str) (c : Char) (h : isWS c = true) :
    pyRStrip (x ++ [c]) = pyRStrip x :=
  rstrip_ws_suffix x [c] (by simp [allWS, h])

theorem rstrip_snoc_not_ws (x : Str) (c : Char) (h : isWS c = false) :
    pyRStrip (x ++ [c]) = x ++ [c] := by
  unfold pyRStrip
  rw [List.reverse_append]
  show ((List.dropWhile isWS (c :: x.reverse))).reverse = x ++ [c]
  rw [List.dropWhile_cons, h]
  simp

theorem exists_splitLines_cons (s : Str) :
    ∃ h tl, splitLines s = h :: tl := by
  cases hs : splitLines s with
  | nil => exact absurd hs (splitLines_ne_nil s)
  | cons h tl => exact ⟨h, tl, rfl⟩

theorem getLastD_ne_nil_eq (l : List Str) (h : l ≠ []) (d₁ d₂ : Str) :
    l.getLastD d₁ = l.getLastD d₂ := by
  rw [List.getLastD_eq_getLast?, List.getLastD_eq_getLast?]
  cases hl : l.getLast? with
  | none => exact absurd (List.getLast?_eq_none_iff.mp hl) h
  | some x => rfl

theorem splitLines_append_single (x : Str) (c : Char) (hc : c ≠ '\n') :
    splitLines (x ++ [c])
      = (splitLines x).dropLast ++ [(splitLines x).getLastD [] ++ [c]] := by
  induction x with
  | nil =>
    rw [List.nil_append, splitLines_no_nl [c] (by simp; exact fun e => hc e.symm)]
    rfl
  | cons a as ih =>
    obtain ⟨h, tl, hsp⟩ := exists_splitLines_cons as
    by_cases ha : a = '\n'
    · subst ha
      rw [List.cons_append, splitLines_cons_nl, splitLines_cons_nl, ih, hsp]
      cases tl with
      | nil => rfl
      | cons t ts => rfl
    · rw [List.cons_append]
      cases tl with
      | nil =>
        have hix : splitLines (as ++ [c]) = [h ++ [c]] := by
          rw [ih, hsp]; rfl
        rw [splitLines_cons_of_ne a _ (h ++ [c]) [] ha hix,
          splitLines_cons_of_ne a as h [] ha hsp]
        rfl
      | cons t ts =>
        have hix : splitLines (as ++ [c])
            = h :: ((t :: ts).dropLast
                ++ [(t :: ts).getLastD [] ++ [c]]) := by
          rw [ih, hsp]
          rw [show ((h :: t :: ts).dropLast : List Str)
            = h :: (t :: ts).dropLast from rfl]
          rw [List.cons_append]
          rw [show ((h :: t :: ts).getLastD [] : Str)
            = (t :: ts).getLastD h from rfl]
          rw [getLastD_ne_nil_eq (t :: ts) (by simp) h []]
        rw [splitLines_cons_of_ne a _ _ _ ha hix,
          splitLines_cons_of_ne a as h (t :: ts) ha hsp]
        rw [show (((a :: h) :: t :: ts).dropLast : List Str)
          = (a :: h) :: (t :: ts).dropLast from rfl]
        rw [show (((a :: h) :: t :: ts).getLastD [] : Str)
          = (t :: ts).getLastD (a :: h) from rfl]
        rw [getLastD_ne_nil_eq (t :: ts) (by simp) (a :: h) []]
        rfl

theorem lstrip_cons_ws (c : Char) (cs : Str) (h : isWS c = true) :
    pyLStrip (c :: cs) = pyLStrip cs := by
  unfold pyLStrip
  rw [List.dropWhile_cons, h]
  simp

/-- Every line of a left-stripped blob comes from a line of the blob with
some whitespace prefix removed. -/
theorem lines_of_lstrip (w : Str) :
    ∀ l ∈ splitLines (pyLStrip w),
      ∃ l₀ ∈ splitLines w, ∃ p, allWS p = true ∧ l₀ = p ++ l := by
  induction w with
  | nil => intro l hl; exact ⟨l, hl, [], rfl, rfl⟩
  | cons c cs ih =>
    by_cases hws : isWS c = true
    · intro l hl
      rw [lstrip_cons_ws c cs hws] at hl
      obtain ⟨l₀, hl₀, p, hp, he⟩ := ih l hl
      by_cases hnl : c = '\n'
      · subst hnl
        exact ⟨l₀, by rw [splitLines_cons_nl]; exact List.mem_cons_of_mem _ hl₀,
          p, hp, he⟩
      · obtain ⟨h, tl, hsp⟩ := exists_splitLines_cons cs
        rw [hsp] at hl₀
        rcases List.mem_cons.mp hl₀ with h1 | h1
        · refine ⟨c :: h, ?_, c :: p, ?_, ?_⟩
          · rw [splitLines_cons_of_ne c cs h tl hnl hsp]
            simp
          · simp [allWS] at hp ⊢
            exact ⟨hws, hp⟩
          · rw [show (c :: p) ++ l = c :: (p ++ l) from rfl, ← he, h1]
        · exact ⟨l₀, by
            rw [splitLines_cons_of_ne c cs h tl hnl hsp]
            exact List.mem_cons_of_mem _ h1, p, hp, he⟩
    · intro l hl
      rw [pyLStrip_of_head_not_ws c cs (by simpa using hws)] at hl
      exact ⟨l, hl, [], rfl, rfl⟩

/-- Every line of a right-stripped blob comes from a line of the blob with
some whitespace suffix removed. -/
theorem lines_of_rstrip (w : Str) :
    ∀ l ∈ splitLines (pyRStrip w),
      ∃ l₀ ∈ splitLines w, ∃ q, allWS q = true ∧ l₀ = l ++ q := by
  induction w using List.reverseRecOn with
  | nil => intro l hl; exact ⟨l, hl, [], rfl, by simp⟩
  | append_singleton x c ih =>
    by_cases hws : isWS c = true
    · intro l hl
      rw [rstrip_snoc_ws x c hws] at hl
      obtain ⟨l₀, hl₀, q, hq, he⟩ := ih l hl
      by_cases hnl : c = '\n'
      · subst hnl
        have hx : splitLines (x ++ ['\n']) = splitLines x ++ [[]] := by
          have := splitLines_append_nl x []
          simpa using this
        exact ⟨l₀, by rw [hx]; exact List.mem_append_left _ hl₀, q, hq, he⟩
      · have hsp := splitLines_append_single x c hnl
        have hxne := splitLines_ne_nil x
        have hdecomp := List.dropLast_append_getLast hxne
        rw [← hdecomp] at hl₀
        rcases List.mem_append.mp hl₀ with h1 | h1
        · exact ⟨l₀, by rw [hsp]; exact List.mem_append_left _ h1, q, hq, he⟩
        · have hl₀' : l₀ = (splitLines x).getLast hxne := by simpa using h1
          refine ⟨l₀ ++ [c], ?_, q ++ [c], ?_, ?_⟩
          · rw [hsp]
            refine List.mem_append_right _ ?_
            have hgd : (splitLines x).getLastD []
                = (splitLines x).getLast hxne := by
              rw [List.getLastD_eq_getLast?, List.getLast?_eq_getLast _ hxne]
              rfl
            rw [hgd, ← hl₀']
            simp
          · simp [allWS] at hq ⊢
            exact ⟨hq, hws⟩
          · rw [he, List.append_assoc]
    · intro l hl
      rw [rstrip_snoc_not_ws x c (by simpa using hws)] at hl
      exact ⟨l, hl, [], rfl, by simp⟩

theorem contains_iff_mem (x : Str) (c : Char) :
    x.contains c = true ↔ c ∈ x := List.elem_iff

theorem ws_contains_colon_false (p : Str) (hp : allWS p = true) :
    p.contains ':' = false := by
  cases h : p.contains ':' with
  | false => rfl
  | true =>
    have := List.all_eq_true.mp hp ':' ((contains_iff_mem p ':').mp h)
    exact absurd this (by decide)

theorem contains_append_pad (p l : Str) (hp : allWS p = true) :
    (p ++ l).contains ':' = true ↔ l.contains ':' = true := by
  rw [contains_iff_mem, contains_iff_mem, List.mem_append]
  constructor
  · rintro (h | h)
    · have := List.all_eq_true.mp hp ':' h
      exact absurd this (by decide)
    · exact h
  · exact Or.inr

theorem contains_pad_append (l q : Str) (hq : allWS q = true) :
    (l ++ q).contains ':' = true ↔ l.contains ':' = true := by
  rw [contains_iff_mem, contains_iff_mem, List.mem_append]
  constructor
  · rintro (h | h)
    · exact h
    · have := List.all_eq_true.mp hq ':' h
      exact absurd this (by decide)
  · exact Or.inl

theorem keepLine_true_iff (x : Str) : keepLine x = true ↔
    (¬ (bulletStart3 (pyStrip x) = true ∧ ¬ x.contains ':' = true)) ∧
      (¬ ("#".data.isPrefixOf (pyStrip x) = true ∧
          ¬ "#".data.isPrefixOf x = true)) := by
  unfold keepLine
  dsimp only
  split_ifs with h1 h2
  · exact iff_of_false (by simp) (fun hr => hr.1 h1)
  · exact iff_of_false (by simp) (fun hr => hr.2 h2)
  · exact iff_of_true rfl ⟨h1, h2⟩

theorem hash_prefix_head (c : Char) (cs : Str)
    (h : "#".data.isPrefixOf (c :: cs) = true) : c = '#' := by
  have : ('#' == c) = true := by simpa [List.isPrefixOf] using h
  exact (beq_iff_eq.mp this).symm

theorem keep_pad_left (p l : Str) (hp : allWS p = true)
    (h : keepLine (p ++ l) = true) : keepLine l = true := by
  rw [keepLine_true_iff] at h ⊢
  have hstrip : pyStrip (p ++ l) = pyStrip l := by
    simpa using strip_pad p l [] hp rfl
  rw [hstrip] at h
  obtain ⟨h1, h2⟩ := h
  constructor
  · rintro ⟨hb, hcl⟩
    exact h1 ⟨hb, fun hc => hcl ((contains_append_pad p l hp).mp hc)⟩
  · rintro ⟨hsp, hlp⟩
    refine h2 ⟨hsp, fun hc => ?_⟩
    cases p with
    | nil => exact hlp hc
    | cons c ps =>
      have hc' := hash_prefix_head c (ps ++ l) (by simpa using hc)
      subst hc'
      have := List.all_eq_true.mp hp '#' (by simp)
      exact absurd this (by decide)

theorem keep_pad_right (l q : Str) (hq : allWS q = true)
    (h : keepLine (l ++ q) = true) : keepLine l = true := by
  rw [keepLine_true_iff] at h ⊢
  have hstrip : pyStrip (l ++ q) = pyStrip l := by
    simpa using strip_pad [] l q rfl hq
  rw [hstrip] at h
  obtain ⟨h1, h2⟩ := h
  constructor
  · rintro ⟨hb, hcl⟩
    exact h1 ⟨hb, fun hc => hcl ((contains_pad_append l q hq).mp hc)⟩
  · rintro ⟨hsp, hlp⟩
    refine h2 ⟨hsp, fun hc => ?_⟩
    cases l with
    | nil =>
      rw [show pyStrip ([] : Str) = [] from rfl] at hsp
      simp [List.isPrefixOf] at hsp
    | cons c cs =>
      have hc' := hash_prefix_head c (cs ++ q) (by simpa using hc)
      subst hc'
      exact hlp (by simp [List.isPrefixOf])

/-- Stripping a blob cannot expose a line that the keep filter would have
dropped, provided every line of the blob is kept. -/
theorem keep_lines_strip (w : Str)
    (hw : ∀ l ∈ splitLines w, keepLine l = true) :
    ∀ l ∈ splitLines (pyStrip w), keepLine l = true := by
  intro l hl
  unfold pyStrip at hl
  obtain ⟨l₁, hl₁, q, hq, he₁⟩ := lines_of_rstrip (pyLStrip w) l hl
  obtain ⟨l₂, hl₂, p, hp, he₂⟩ := lines_of_lstrip w l₁ hl₁
  have h₂ := hw l₂ hl₂
  rw [he₂] at h₂
  have h₁ := keep_pad_left p l₁ hp h₂
  rw [he₁] at h₁
  exact keep_pad_right l q hq h₁

theorem strip_rstrip (b : Str) : pyStrip (pyRStrip b) = pyStrip b := by
  obtain ⟨q, hq, hqws⟩ := rstrip_decomp b
  conv_rhs => rw [hq]
  rw [show pyRStrip b ++ q = [] ++ pyRStrip b ++ q from by simp]
  rw [strip_pad [] (pyRStrip b) q rfl hqws]

theorem isBoundary_congr (a b : Str) (h : pyStrip a = pyStrip b) :
    isBoundary a = isBoundary b := by
  unfold isBoundary
  rw [h]

/-! ## Boundary-scan lemmas -/

theorem lb_some_lt (ll : List Str) (j : Nat)
    (h : lastBoundary? ll = some j) : j < ll.length := by
  induction ll generalizing j with
  | nil => simp [lastBoundary?] at h
  | cons l ls ih =>
    unfold lastBoundary? at h
    cases hls : lastBoundary? ls with
    | some j' =>
      rw [hls] at h
      dsimp only at h
      cases h
      exact Nat.succ_lt_succ (ih j' hls)
    | none =>
      rw [hls] at h
      dsimp only at h
      by_cases hb : isBoundary l = true
      · rw [if_pos hb] at h
        cases h
        simp
      · rw [if_neg hb] at h
        simp at h

theorem lb_some_boundary (ll : List Str) (j : Nat)
    (h : lastBoundary? ll = some j) : isBoundary (ll.getD j []) = true := by
  induction ll generalizing j with
  | nil => simp [lastBoundary?] at h
  | cons l ls ih =>
    unfold lastBoundary? at h
    cases hls : lastBoundary? ls with
    | some j' =>
      rw [hls] at h
      dsimp only at h
      cases h
      rw [List.getD_cons_succ]
      exact ih j' hls
    | none =>
      rw [hls] at h
      dsimp only at h
      by_cases hb : isBoundary l = true
      · rw [if_pos hb] at h
        cases h
        simpa using hb
      · rw [if_neg hb] at h
        simp at h

theorem lastYamlIdx_le (ll : List Str) :
    lastYamlIdx ll ≤ ll.length - 1 := by
  unfold lastYamlIdx
  cases h : lastBoundary? ll with
  | none => simp
  | some j =>
    have := lb_some_lt ll j h
    simp only [Option.getD_some]
    omega

theorem lb_append_singleton_boundary (A : List Str) (x : Str)
    (hx : isBoundary x = true) :
    lastBoundary? (A ++ [x]) = some A.length := by
  induction A with
  | nil => simp [lastBoundary?, hx]
  | cons a A ih =>
    rw [List.cons_append]
    unfold lastBoundary?
    rw [ih]
    rfl

theorem lastYamlIdx_snoc_boundary (A : List Str) (x : Str)
    (hx : isBoundary x = true) :
    lastYamlIdx (A ++ [x]) = (A ++ [x]).length - 1 := by
  unfold lastYamlIdx
  rw [lb_append_singleton_boundary A x hx]
  simp

theorem getD_mem_of_lt (l : List Str) (n : Nat) (d : Str)
    (h : n < l.length) : l.getD n d ∈ l := by
  induction l generalizing n with
  | nil => simp at h
  | cons a as ih =>
    cases n with
    | zero => simp
    | succ m =>
      rw [List.getD_cons_succ]
      exact List.mem_cons_of_mem _ (ih m (by simpa using h))

theorem take_succ_getD (l : List Str) (n : Nat) (h : n < l.length) :
    l.take (n + 1) = l.take n ++ [l.getD n []] := by
  induction l generalizing n with
  | nil => simp at h
  | cons a as ih =>
    cases n with
    | zero => simp
    | succ m =>
      rw [List.getD_cons_succ, List.take_succ_cons, List.take_succ_cons,
        ih m (by simpa using h), List.cons_append]

theorem joinNL_snoc (A : List Str) (x : Str) (hA : A ≠ []) :
    joinNL (A ++ [x]) = joinNL A ++ '\n' :: x := by
  induction A with
  | nil => exact absurd rfl hA
  | cons a A ih =>
    cases A with
    | nil => rfl
    | cons b B =>
      have h1 : joinNL ((a :: b :: B) ++ [x])
          = a ++ '\n' :: joinNL ((b :: B) ++ [x]) := rfl
      rw [h1, ih (by simp), joinNL_cons_cons, List.append_assoc]
      rfl

theorem mem_rstrip_subset (l : Str) (c : Char) (h : c ∈ pyRStrip l) :
    c ∈ l := (pyRStripPrefix l).subset h

theorem joinNL_cons_head (c : Char) (h : Str) (rest : List Str) :
    ∃ r, joinNL ((c :: h) :: rest) = c :: r := by
  cases rest with
  | nil => exact ⟨h, rfl⟩
  | cons b B => exact ⟨h ++ '\n' :: joinNL (b :: B), rfl⟩

theorem rstrip_joinNL_snoc (A : List Str) (b : Str)
    (hb : ∃ d ∈ b, isWS d = false) :
    pyRStrip (joinNL (A ++ [b])) = joinNL (A ++ [pyRStrip b]) := by
  cases hA : A with
  | nil => simp [joinNL]
  | cons a A' =>
    rw [joinNL_snoc _ _ (by simp), joinNL_snoc _ _ (by simp)]
    have h1 : pyRStrip (joinNL (a :: A') ++ '\n' :: b)
        = joinNL (a :: A') ++ pyRStrip ('\n' :: b) := by
      refine rstrip_append_keep _ _ ?_
      obtain ⟨d, hd, hdw⟩ := hb
      exact ⟨d, by simp [hd], hdw⟩
    have h2 : pyRStrip ('\n' :: b) = '\n' :: pyRStrip b := by
      have := rstrip_append_keep ['\n'] b hb
      simpa using this
    rw [h1, h2]

theorem cleanYamlContent_eq (lines : List Str) :
    cleanYamlContent lines =
      (if lastYamlIdx (splitLines (pyStrip (joinNL (lines.filter keepLine))))
          < (splitLines (pyStrip (joinNL (lines.filter keepLine)))).length - 1
       then pyStrip (joinNL
          ((splitLines (pyStrip (joinNL (lines.filter keepLine)))).take
            (lastYamlIdx (splitLines (pyStrip (joinNL (lines.filter keepLine)))) + 1)))
       else pyStrip (joinNL (lines.filter keepLine))) := by
  unfold cleanYamlContent
  dsimp only
  split_ifs with h
  · rfl
  · exact pyStrip_idem _

theorem clean_stripped (x : List Str) :
    pyStrip (cleanYamlContent x) = cleanYamlContent x := by
  rw [cleanYamlContent_eq]
  split_ifs with h
  · exact pyStrip_idem _
  · exact pyStrip_idem _

/-- Structure of the trimmed output in the case where the trailing-
commentary scan broke before the last line: the output's lines are the
kept prefix plus the right-stripped boundary line. -/
theorem caseA_struct (content : Str)
    (hcs : pyStrip content = content)
    (hA : lastYamlIdx (splitLines content)
      < (splitLines content).length - 1) :
    splitLines (pyStrip (joinNL ((splitLines content).take
        (lastYamlIdx (splitLines content) + 1))))
      = (splitLines content).take (lastYamlIdx (splitLines content))
          ++ [pyRStrip ((splitLines content).getD
              (lastYamlIdx (splitLines content)) [])] ∧
    isBoundary ((splitLines content).getD
        (lastYamlIdx (splitLines content)) []) = true := by
  set ll := splitLines content with hlldef
  have hlb : lastBoundary? ll = some (lastYamlIdx ll) := by
    cases h : lastBoundary? ll with
    | none =>
      exfalso
      unfold lastYamlIdx at hA
      rw [h] at hA
      simp at hA
    | some j =>
      unfold lastYamlIdx
      rw [h]
      rfl
  have hjlt : lastYamlIdx ll < ll.length := lb_some_lt _ _ hlb
  have hbd : isBoundary (ll.getD (lastYamlIdx ll) []) = true :=
    lb_some_boundary _ _ hlb
  have htk : ll.take (lastYamlIdx ll + 1)
      = ll.take (lastYamlIdx ll) ++ [ll.getD (lastYamlIdx ll) []] :=
    take_succ_getD ll (lastYamlIdx ll) hjlt
  have hbne : pyStrip (ll.getD (lastYamlIdx ll) []) ≠ [] := by
    intro hx
    have hbd' := hbd
    unfold isBoundary at hbd'
    dsimp only at hbd'
    rw [hx] at hbd'
    simp at hbd'
  have hbnws : ∃ d ∈ ll.getD (lastYamlIdx ll) [], isWS d = false :=
    exists_not_ws_of_strip_ne _ hbne
  have hll2 : 2 ≤ ll.length := by omega
  have hcne : content ≠ [] := by
    intro h
    have h2 : ll = [[]] := by rw [hlldef, h]; rfl
    rw [h2] at hll2
    simp at hll2
  obtain ⟨c, cs, hcc⟩ : ∃ c cs, content = c :: cs := by
    cases content with
    | nil => exact absurd rfl hcne
    | cons c cs => exact ⟨c, cs, rfl⟩
  have hcw : isWS c = false :=
    pyStrip_head_not_ws content c cs (by rw [hcs, hcc])
  have hcnl : c ≠ '\n' := by
    intro h
    rw [h] at hcw
    exact absurd hcw (by decide)
  obtain ⟨h', tl', hsp'⟩ := exists_splitLines_cons cs
  have hllc : ll = (c :: h') :: tl' := by
    rw [hlldef, hcc]
    exact splitLines_cons_of_ne c cs h' tl' hcnl hsp'
  obtain ⟨rest, hrest⟩ : ∃ rest, ll.take (lastYamlIdx ll + 1)
      = (c :: h') :: rest := by
    generalize lastYamlIdx ll = n
    rw [hllc, List.take_succ_cons]
    exact ⟨_, rfl⟩
  have hLid : pyLStrip (joinNL (ll.take (lastYamlIdx ll + 1)))
      = joinNL (ll.take (lastYamlIdx ll + 1)) := by
    rw [hrest]
    obtain ⟨r, hr⟩ := joinNL_cons_head c h' rest
    rw [hr]
    exact pyLStrip_of_head_not_ws c r hcw
  have hout : pyStrip (joinNL (ll.take (lastYamlIdx ll + 1)))
      = joinNL (ll.take (lastYamlIdx ll)
          ++ [pyRStrip (ll.getD (lastYamlIdx ll) [])]) := by
    unfold pyStrip
    rw [hLid, htk, rstrip_joinNL_snoc _ _ hbnws]
  have hnfA : ∀ l ∈ ll.take (lastYamlIdx ll)
      ++ [pyRStrip (ll.getD (lastYamlIdx ll) [])], '\n' ∉ l := by
    intro l hl
    rcases List.mem_append.mp hl with h1 | h1
    · exact mem_splitLines_no_nl content l
        (hlldef ▸ List.take_subset _ _ h1)
    · have hleq : l = pyRStrip (ll.getD (lastYamlIdx ll) []) := by
        simpa using h1
      subst hleq
      intro hmem
      have hbmem : ll.getD (lastYamlIdx ll) [] ∈ ll :=
        getD_mem_of_lt ll (lastYamlIdx ll) [] hjlt
      exact mem_splitLines_no_nl content _ (hlldef ▸ hbmem)
        (mem_rstrip_subset _ '\n' hmem)
  exact ⟨by rw [hout]; exact splitLines_joinNL _ (by simp) hnfA, hbd⟩

/-- The sanitizer's output is in normal form: every line survives the keep
filter, and the trailing-commentary scan finds its boundary at the last
line (so a second pass trims nothing). -/
theorem clean_norm (lines : List Str) (hnf : ∀ l ∈ lines, '\n' ∉ l) :
    (∀ l ∈ splitLines (cleanYamlContent lines), keepLine l = true) ∧
      lastYamlIdx (splitLines (cleanYamlContent lines))
        = (splitLines (cleanYamlContent lines)).length - 1 := by
  have hkeepC : ∀ l ∈ splitLines (pyStrip (joinNL (lines.filter keepLine))),
      keepLine l = true := by
    apply keep_lines_strip
    intro l hl
    cases hk : lines.filter keepLine with
    | nil =>
      rw [hk] at hl
      have : l = [] := by simpa [joinNL, splitLines] using hl
      subst this
      decide
    | cons k ks =>
      rw [hk] at hl
      have hknf : ∀ y ∈ k :: ks, '\n' ∉ y := by
        intro y hy
        exact hnf y (List.mem_of_mem_filter (hk ▸ hy))
      rw [splitLines_joinNL _ (by simp) hknf] at hl
      exact List.of_mem_filter (hk ▸ hl)
  rw [cleanYamlContent_eq]
  by_cases hA : lastYamlIdx (splitLines (pyStrip (joinNL (lines.filter keepLine))))
      < (splitLines (pyStrip (joinNL (lines.filter keepLine)))).length - 1
  · rw [if_pos hA]
    obtain ⟨hstruct, hbd⟩ :=
      caseA_struct (pyStrip (joinNL (lines.filter keepLine)))
        (pyStrip_idem _) hA
    rw [hstruct]
    constructor
    · intro l hl
      rcases List.mem_append.mp hl with h1 | h1
      · exact hkeepC l (List.take_subset _ _ h1)
      · have hleq : l = pyRStrip ((splitLines (pyStrip (joinNL
            (lines.filter keepLine)))).getD (lastYamlIdx (splitLines
              (pyStrip (joinNL (lines.filter keepLine))))) []) := by
          simpa using h1
        subst hleq
        obtain ⟨q, hq, hqws⟩ := rstrip_decomp ((splitLines (pyStrip (joinNL
          (lines.filter keepLine)))).getD (lastYamlIdx (splitLines
            (pyStrip (joinNL (lines.filter keepLine))))) [])
        refine keep_pad_right _ q hqws ?_
        rw [← hq]
        refine hkeepC _ (getD_mem_of_lt _ _ _ ?_)
        have hle := lastYamlIdx_le (splitLines (pyStrip (joinNL
          (lines.filter keepLine))))
        omega
    · have hbd2 : isBoundary (pyRStrip ((splitLines (pyStrip (joinNL
          (lines.filter keepLine)))).getD (lastYamlIdx (splitLines
            (pyStrip (joinNL (lines.filter keepLine))))) [])) = true := by
        rw [isBoundary_congr _ _ (strip_rstrip _)]
        exact hbd
      exact lastYamlIdx_snoc_boundary _ _ hbd2
  · rw [if_neg hA]
    refine ⟨hkeepC, ?_⟩
    have hle := lastYamlIdx_le (splitLines (pyStrip (joinNL
      (lines.filter keepLine))))
    omega

/-- C9: the sanitizer is idempotent on genuine line sequences (lines carry
no embedded newline, as the upstream split guarantees): sanitizing the
line sequence of its own output returns the output unchanged. -/
theorem C9_sanitizer_idempotent (lines : List Str)
    (hnf : ∀ l ∈ lines, '\n' ∉ l) :
    cleanYamlContent (splitLines (cleanYamlContent lines))
      = cleanYamlContent lines := by
  obtain ⟨hkeep, hidx⟩ := clean_norm lines hnf
  have hstr : pyStrip (cleanYamlContent lines) = cleanYamlContent lines :=
    clean_stripped lines
  rw [cleanYamlContent_eq (splitLines (cleanYamlContent lines))]
  rw [List.filter_eq_self.mpr hkeep, joinNL_splitLines, hstr]
  rw [if_neg (by rw [hidx]; exact lt_irrefl _)]

/-- Witness for C9 at a concrete line sequence. -/
theorem C9_witness :
    cleanYamlContent (splitLines (cleanYamlContent
        ["jobs:".data, "  build:".data, "* note".data]))
      = cleanYamlContent ["jobs:".data, "  build:".data, "* note".data] :=
  C9_sanitizer_idempotent _ (by decide)

/-- C8 counterexample: the line `"- step one"` has no colon and its
trimmed form leads with `-`, so the first loop of the sanitizer drops it
as a markdown bullet: it is not preserved. -/
theorem C8_counterexample :
    cleanYamlContent ["jobs:".data, "- step one".data] = "jobs:".data := by
  decide

/-- C8 amended: a `"- step one"` line (dash-led, no colon) is always
dropped by the sanitizer's bullet rule, so it never appears among the
output's lines; only dash-led lines containing a colon survive the
filter. -/
theorem C8_amended_bullet_drops_dashed_line (lines : List Str)
    (hnf : ∀ l ∈ lines, '\n' ∉ l) (_hmem : "- step one".data ∈ lines) :
    "- step one".data ∉ splitLines (cleanYamlContent lines) := by
  intro hout
  have hk := (clean_norm lines hnf).1 _ hout
  exact absurd hk (by decide)

/-- Witness for C8's amended theorem. -/
theorem C8_amended_witness :
    "- step one".data ∉
      splitLines (cleanYamlContent ["jobs:".data, "- step one".data]) :=
  C8_amended_bullet_drops_dashed_line _ (by decide) (by decide)

/-! ## Planner lemmas -/

theorem genLoop_calls (gem : Str → Except Str Str) (sys examples : Str)
    (dump : Yaml → Str) (top : List (Str × Yaml)) (js : List (Str × Yaml))
    (entries : List (Str × Yaml)) (acc : List (Str × Str))
    (hrefs : ∀ p ∈ entries, ∃ refs, workflowJobRefs p.2 = .ok refs)
    (hgem : ∀ p, ∃ r, gem p = .ok r) :
    (genLoop gem sys examples dump top (.map js) acc entries).1.length
        = entries.length ∧
      ∃ m, (genLoop gem sys examples dump top (.map js) acc entries).2
        = .ok m := by
  induction entries generalizing acc with
  | nil => exact ⟨rfl, acc, rfl⟩
  | cons e es ih =>
    obtain ⟨name, wcfg⟩ := e
    obtain ⟨refs, hr⟩ := hrefs (name, wcfg) (by simp)
    obtain ⟨r, hgr⟩ := hgem (sys ++ "\n\n".data
      ++ individualPrompt examples
          (dump (minimalConfig top
            (dedupKeys (refs.filterMap fun q =>
              match q with
              | .str s => (List.lookup s js).map fun v => (s, v)
              | _ => none)) name wcfg)) name)
    have hbmj : buildMinimalJobs (.map js) refs
        = .ok (dedupKeys (refs.filterMap fun q =>
            match q with
            | .str s => (List.lookup s js).map fun v => (s, v)
            | _ => none)) := rfl
    unfold genLoop
    rw [hr]
    dsimp only
    rw [hbmj]
    dsimp only
    rw [hgr]
    dsimp only
    obtain ⟨hlen, m, hm⟩ := ih (dictUpdate acc (parseWorkflows r))
      (fun p hp => hrefs p (by simp [hp]))
    refine ⟨?_, m, ?_⟩
    · simp only [List.length_cons, hlen]
    · exact hm

theorem genIndividually_calls (gem : Str → Except Str Str)
    (sys examples : Str) (dump : Yaml → Str) (top : List (Str × Yaml))
    (wsE : List (Str × Yaml)) (js : List (Str × Yaml))
    (hjs : (List.lookup "jobs".data top).getD (.map []) = Yaml.map js)
    (hrefs : ∀ p ∈ wsE.filter (fun q => ¬ q.1 = "version".data),
      ∃ refs, workflowJobRefs p.2 = .ok refs)
    (hgem : ∀ p, ∃ r, gem p = .ok r) :
    (genIndividually gem sys examples dump top wsE).1.length
        = (wsE.filter (fun q => ¬ q.1 = "version".data)).length ∧
      ∃ m, (genIndividually gem sys examples dump top wsE).2 = .ok m := by
  unfold genIndividually
  dsimp only
  rw [hjs]
  by_cases he : (wsE.filter (fun q => ¬ q.1 = "version".data)).isEmpty
  · rw [if_pos he]
    refine ⟨?_, [], rfl⟩
    rw [List.isEmpty_iff.mp he]
    rfl
  · rw [if_neg he]
    exact genLoop_calls gem sys examples dump top js _ [] hrefs hgem

theorem tryPath_individual (gem : Str → Except Str Str) (sys examples : Str)
    (dump : Yaml → Str) (top : List (Str × Yaml))
    (wsE : List (Str × Yaml))
    (hws : List.lookup "workflows".data top = some (.map wsE))
    (hlen : 1 < wsE.length) :
    tryIndividualPath gem sys examples dump (some (.map top))
      = (match genIndividually gem sys examples dump top wsE with
         | (calls, .ok m) => (calls, some m)
         | (calls, .error _) => (calls, none)) := by
  simp only [tryIndividualPath]
  rw [hws]
  rw [if_pos (by
    show truthy ((some (Yaml.map wsE)).getD (Yaml.map [])) = true
    unfold truthy
    cases wsE with
    | nil => simp at hlen
    | cons a l => simp)]
  simp only [Option.getD_some, pyLen]
  rw [if_pos hlen]

theorem gw_batch_calls (gem : Str → Except Str Str) (sys examples : Str)
    (dump : Yaml → Str) (parsed : Option Yaml) (orig : Str)
    (h : tryIndividualPath gem sys examples dump parsed = ([], none)) :
    (generateWorkflow gem sys examples dump parsed orig).1
      = [sys ++ "\n\n".data ++ allWorkflowsPrompt examples orig] := by
  unfold generateWorkflow
  rw [h]
  dsimp only
  cases hg : gem (sys ++ "\n\n".data ++ allWorkflowsPrompt examples orig) with
  | ok r => simp
  | error e => simp

theorem tryPath_le_one (gem : Str → Except Str Str) (sys examples : Str)
    (dump : Yaml → Str) (top : List (Str × Yaml))
    (wsE : List (Str × Yaml))
    (hws : (List.lookup "workflows".data top).getD (.map []) = .map wsE)
    (hlen : wsE.length ≤ 1) :
    tryIndividualPath gem sys examples dump (some (.map top))
      = ([], none) := by
  unfold tryIndividualPath
  dsimp only
  rw [hws]
  cases wsE with
  | nil => rfl
  | cons a l =>
    cases l with
    | nil =>
      rw [if_pos (by simp [truthy])]
      rfl
    | cons b m => simp at hlen

/-- A generation service that always succeeds with an empty response. -/
def gemConst : Str → Except Str Str := fun _ => .ok []

/-- A trivial stand-in for `yaml.dump`. -/
def dumpEmpty : Yaml → Str := fun _ => []

/-- C1 counterexample: a parsed config whose `workflows` mapping holds the
reserved `version` entry plus exactly one workflow.  After excluding the
version entry there is one workflow, so the claim requires a single batch
request carrying the full original text; the code instead compares
`len(workflows_section) > 1` before excluding `version`, takes the
per-workflow path, and sends one request whose prompt does not contain
the original text (here `"§"`, a character absent from the prompt). -/
theorem C1_counterexample :
    (generateWorkflow gemConst [] [] dumpEmpty
        (some (.map [("workflows".data,
          Yaml.map [("version".data, Yaml.num 2),
            ("build".data, Yaml.map [])])]))
        "§".data).1.length = 1 ∧
      ¬ "§".data <:+:
        ((generateWorkflow gemConst [] [] dumpEmpty
          (some (.map [("workflows".data,
            Yaml.map [("version".data, Yaml.num 2),
              ("build".data, Yaml.map [])])]))
          "§".data).1.headD []) := by
  constructor
  · rfl
  · intro h
    obtain ⟨s, t, hst⟩ := h
    have hmem : '§' ∈ (generateWorkflow gemConst [] [] dumpEmpty
        (some (.map [("workflows".data,
          Yaml.map [("version".data, Yaml.num 2),
            ("build".data, Yaml.map [])])]))
        "§".data).1.headD [] := by
      rw [← hst]
      simp
    exact absurd hmem (by decide)

/-- C1 amended: the decision counts the `version` entry.  When parsing
succeeds with a mapping whose `workflows` entry is a mapping of more than
one entry (the reserved `version` entry included in the count) and the
per-workflow constructions and generation requests all succeed, the
planner issues one request per non-`version` workflow entry; when parsing
fails, or the `workflows` mapping (counting `version`) has at most one
entry, it issues exactly one request whose prompt carries the full
original specification text. -/
theorem C1_amended_decomposition_decision (gem : Str → Except Str Str)
    (sys examples : Str) (dump : Yaml → Str) (orig : Str) :
    (∀ top wsE js : List (Str × Yaml),
      List.lookup "workflows".data top = some (.map wsE) →
      1 < wsE.length →
      (List.lookup "jobs".data top).getD (.map []) = Yaml.map js →
      (∀ p ∈ wsE.filter (fun q => ¬ q.1 = "version".data),
        ∃ refs, workflowJobRefs p.2 = .ok refs) →
      (∀ p, ∃ r, gem p = .ok r) →
      (generateWorkflow gem sys examples dump (some (.map top)) orig).1.length
        = (wsE.filter (fun q => ¬ q.1 = "version".data)).length) ∧
    (∀ parsed : Option Yaml,
      (parsed = none ∨ ∃ top wsE : List (Str × Yaml),
        parsed = some (.map top) ∧
        (List.lookup "workflows".data top).getD (.map []) = .map wsE ∧
        wsE.length ≤ 1) →
      (generateWorkflow gem sys examples dump parsed orig).1
          = [sys ++ "\n\n".data ++ allWorkflowsPrompt examples orig] ∧
        ∃ a b, sys ++ "\n\n".data ++ allWorkflowsPrompt examples orig
          = a ++ orig ++ b) := by
  constructor
  · intro top wsE js hws hlen hjs hrefs hgem
    obtain ⟨hclen, m, hm⟩ :=
      genIndividually_calls gem sys examples dump top wsE js hjs hrefs hgem
    have htry := tryPath_individual gem sys examples dump top wsE hws hlen
    rcases hgi : genIndividually gem sys examples dump top wsE with ⟨calls, res⟩
    rw [hgi] at htry hm hclen
    cases res with
    | error e => simp at hm
    | ok m' =>
      unfold generateWorkflow
      rw [htry]
      exact hclen
  · intro parsed hp
    have htry0 : tryIndividualPath gem sys examples dump parsed
        = ([], none) := by
      rcases hp with h | ⟨top, wsE, hpe, hws, hlen⟩
      · subst h; rfl
      · subst hpe
        exact tryPath_le_one gem sys examples dump top wsE hws hlen
    refine ⟨gw_batch_calls gem sys examples dump parsed orig htry0,
      sys ++ "\n\n".data ++ batchP1 ++ examples ++ batchP2, batchP3, ?_⟩
    simp [allWorkflowsPrompt, List.append_assoc]

/-- Witness for C1's amended theorem: two genuine workflows, everything
succeeding, yields two requests; a one-workflow config yields one batch
request containing the original text. -/
theorem C1_amended_witness :
    (generateWorkflow gemConst [] [] dumpEmpty
        (some (.map [("workflows".data,
          Yaml.map [("a".data, Yaml.map []), ("b".data, Yaml.map [])])]))
        "x".data).1.length = 2 ∧
      (generateWorkflow gemConst [] [] dumpEmpty none "x".data).1
        = ["".data ++ "\n\n".data ++ allWorkflowsPrompt "".data "x".data] := by
  constructor
  · have := (C1_amended_decomposition_decision gemConst [] [] dumpEmpty
      "x".data).1
      [("workflows".data,
        Yaml.map [("a".data, Yaml.map []), ("b".data, Yaml.map [])])]
      [("a".data, Yaml.map []), ("b".data, Yaml.map [])] [] rfl (by decide)
      rfl
      (by
        intro p hp
        fin_cases hp <;> exact ⟨[], rfl⟩)
      (fun p => ⟨[], rfl⟩)
    simpa using this
  · exact ((C1_amended_decomposition_decision gemConst [] [] dumpEmpty
      "x".data).2 none (Or.inl rfl)).1

/-- A generation service that fails on every per-workflow request (their
user message starts with the per-workflow prompt's first line) and
succeeds on the batch request. -/
def gemFailIndividual : Str → Except Str Str := fun p =>
  if "\n\nConvert this CircleCI workflow".data.isPrefixOf p then
    .error "BOOM".data
  else .ok []

/-- C2: a two-workflow config takes the per-workflow path; the generation
service fails on the very first request (the first conjunct counts two
requests, the second shows that first request indeed errors), yet
`generate_workflow` returns successfully: the bare `except:` of the
`try:` block — whose comment says it is there for parse failures — also
catches the transport failure and falls back to a fresh batch request,
instead of letting the failure propagate unmodified. -/
theorem C2_individual_failure_swallowed :
    (generateWorkflow gemFailIndividual [] [] dumpEmpty
        (some (.map [("workflows".data,
          Yaml.map [("a".data, Yaml.map []), ("b".data, Yaml.map [])])]))
        "orig".data).1.length = 2 ∧
      gemFailIndividual
        ((generateWorkflow gemFailIndividual [] [] dumpEmpty
          (some (.map [("workflows".data,
            Yaml.map [("a".data, Yaml.map []), ("b".data, Yaml.map [])])]))
          "orig".data).1.headD []) = .error "BOOM".data ∧
      (generateWorkflow gemFailIndividual [] [] dumpEmpty
        (some (.map [("workflows".data,
          Yaml.map [("a".data, Yaml.map []), ("b".data, Yaml.map [])])]))
        "orig".data).2 = .ok [] :=
  ⟨rfl, rfl, rfl⟩
